import Mathlib

/-!
Verification of the comics-compressor pipeline (a Go CLI that recompresses
CBZ comic archives) against its natural-language specification.

The Go source is shallowly embedded: strings are modelled as lists of byte
values (`List Nat`, Go indexes strings by byte), pure functions become Lean
functions, and the filesystem/zip/image-codec collaborators become explicit
parameters (oracles) or a small association-list disk model.  Machine
integers (`int`, `int64`) are modelled by `Nat`: all quantities involved are
byte counts, pixel dimensions and small loop counters, far below any
overflow boundary, and digit-run values in the natural sort are treated as
ideal integers.  `float64` quantities (MB-per-page) are modelled by `ℚ`;
only their comparison outcomes matter for the claims below, never rounding.
-/

namespace Comics

/-- A Go string viewed as its byte sequence. -/
abbrev ByteStr := List Nat

/-- Bytes of an ASCII string literal (every character below 128, where the
UTF-8 byte equals the code point). Used only to write concrete inputs. -/
def asciiBytes (s : String) : ByteStr := s.data.map Char.toNat

/-- ASCII lower-casing of one byte, as `strings.ToLower` acts on ASCII. -/
def lowerByte (c : Nat) : Nat := if 65 ≤ c ∧ c ≤ 90 then c + 32 else c

/-- `strings.ToLower` restricted to ASCII bytes. -/
def toLowerBytes (s : ByteStr) : ByteStr := s.map lowerByte

/-- `filepath.Base`: the final path element (the part after the last `/`).
Archive entry names and source paths never end in a separator, so the
trailing-slash trimming of the Go function is not reachable here. -/
def baseNameBytes (p : ByteStr) : ByteStr :=
  ((p.reverse.takeWhile (fun c => c ≠ 47))).reverse

/-- `filepath.Ext`: the suffix starting at the last dot of the final path
element, empty if the final element has no dot. -/
def extBytes (p : ByteStr) : ByteStr :=
  let finalRev := p.reverse.takeWhile (fun c => c ≠ 47)
  match finalRev.findIdx? (fun c => c = 46) with
  | none => []
  | some k => (finalRev.take (k + 1)).reverse

/-- `strings.HasPrefix` on byte strings. -/
def startsWithBytes (s pre : ByteStr) : Bool := pre.isPrefixOf s

/-- `strings.TrimSuffix`: drop `suf` if `s` ends with it, else `s` unchanged. -/
def trimSuffixBytes (s suf : ByteStr) : ByteStr :=
  if suf.isSuffixOf s then s.take (s.length - suf.length) else s

/-- `strings.Contains` on byte strings. -/
def containsBytes (s sub : ByteStr) : Bool :=
  (List.range (s.length + 1)).any (fun i => sub.isPrefixOf (s.drop i))

/-- The bytes of ".jpg". -/
def jpgExt : ByteStr := asciiBytes ".jpg"

/-- The bytes of ".jpeg". -/
def jpegExt : ByteStr := asciiBytes ".jpeg"

/-- The supported image extensions of `cbz.SupportedImageExtensions` /
`analyzer.supportedImageExtensions` (identical sets). -/
def supportedImageExts : List ByteStr :=
  [asciiBytes ".jpg", asciiBytes ".jpeg", asciiBytes ".png",
   asciiBytes ".gif", asciiBytes ".webp", asciiBytes ".bmp"]

/-- Membership in the supported image extension set (applied, as in the Go
code, to the lower-cased `filepath.Ext` of an entry name). -/
def isSupportedExt (e : ByteStr) : Bool := supportedImageExts.contains e

/-! ### The image transformer (`internal/processor/image.go`) -/

/-- A decoded image, characterised by what the transformer inspects of it:
its pixel dimensions. -/
structure GoImage where
  width : Nat
  height : Nat
deriving DecidableEq, Repr

/-- The image codec collaborators used by `ImageProcessor.Process`:
`imaging.Decode` (with auto-orientation), `imaging.Fit` and the JPEG
encoder `encodeJPEG` (whose internals are outside the spec's scope and are
therefore parameters of the embedding).  `none` models a returned error. -/
structure Codec where
  decode : ByteStr → Option GoImage
  fit : GoImage → Nat → GoImage
  encode : GoImage → Nat → Option ByteStr

/-- `cbz.ImageEntry`. -/
structure ImageEntry where
  path : ByteStr
  originalSize : Nat
  data : ByteStr
  modTime : Nat := 0
deriving DecidableEq, Repr

/-- `processor.ProcessedImage`. -/
structure ProcessedImage where
  newPath : ByteStr
  data : ByteStr
  wasResized : Bool
  wasConverted : Bool
  originalSize : Nat
  newSize : Nat
deriving DecidableEq, Repr

/-- `processor.ImageProcessor` settings. -/
structure ImageProcessor where
  maxDimension : Nat
  jpegQuality : Nat
deriving DecidableEq, Repr

/-- The list of qualities the adaptive retry loop of
`ImageProcessor.Process` iterates over, starting at `q` and stepping by 5
down to the floor 60 (`for quality := q; quality >= 60; quality -= 5`).
Structural fuel (`q` itself bounds the iteration count) keeps the
definition kernel-reducible. -/
def qualsAux : Nat → Nat → List Nat
  | 0, _ => []
  | f + 1, q => if 60 ≤ q then q :: qualsAux f (q - 5) else []

/-- Qualities attempted by the retry loop when it starts at `q`. -/
def qualitiesFrom (q : Nat) : List Nat := qualsAux q q

/-- The adaptive-quality retry loop of `ImageProcessor.Process`
(image.go lines 86-100).  `acc` is the current `(newData, newSize)` pair;
for each quality: an encode error breaks the loop keeping the current
candidate; an attempt smaller than `origSize` is kept and the loop breaks;
otherwise the attempt replaces the current candidate and the loop
continues. -/
def retryLoop (encode : Nat → Option ByteStr) (origSize : Nat) :
    List Nat → ByteStr × Nat → ByteStr × Nat
  | [], acc => acc
  | q :: qs, acc =>
    match encode q with
    | none => acc
    | some d =>
      if d.length < origSize then (d, d.length)
      else retryLoop encode origSize qs (d, d.length)

/-- `ImageProcessor.Process` (image.go lines 40-116): decode, determine the
output path (non-JPEG extensions renamed to `.jpg` and marked converted),
resize when a dimension exceeds the maximum, encode at the configured
quality, run the adaptive retry loop when the result is larger than the
original, and keep the original bytes when the candidate is still not
smaller, the source was already JPEG and no resize occurred. -/
def Process (p : ImageProcessor) (codec : Codec) (entry : ImageEntry) :
    Option ProcessedImage :=
  match codec.decode entry.data with
  | none => none
  | some img0 =>
    let ext := toLowerBytes (extBytes entry.path)
    let isAlreadyJPEG : Bool := ext = jpgExt ∨ ext = jpegExt
    let newPath0 : ByteStr :=
      if isAlreadyJPEG then entry.path else trimSuffixBytes entry.path ext ++ jpgExt
    let wasConverted0 : Bool := !isAlreadyJPEG
    let needResize : Bool :=
      decide (p.maxDimension < img0.width) || decide (p.maxDimension < img0.height)
    let img := if needResize then codec.fit img0 p.maxDimension else img0
    match codec.encode img p.jpegQuality with
    | none => none
    | some d0 =>
      let acc :=
        if entry.originalSize < d0.length then
          retryLoop (codec.encode img) entry.originalSize
            (qualitiesFrom (p.jpegQuality - 5)) (d0, d0.length)
        else (d0, d0.length)
      if entry.originalSize ≤ acc.2 ∧ isAlreadyJPEG = true ∧ needResize = false then
        some { newPath := entry.path, data := entry.data, wasResized := false,
               wasConverted := false, originalSize := entry.originalSize,
               newSize := entry.originalSize }
      else
        some { newPath := newPath0, data := acc.1, wasResized := needResize,
               wasConverted := wasConverted0, originalSize := entry.originalSize,
               newSize := acc.2 }

/-! #### Concrete inputs for the adaptive-retry counterexample (C2) -/

/-- Transformer settings: quality 70, so the retry schedule is 65, 60. -/
def ppRetry : ImageProcessor := { maxDimension := 100, jpegQuality := 70 }

/-- A codec whose encoder produces 10 bytes at quality 70, 8 bytes at
quality 65 and 9 bytes at every other quality: the attempt sizes seen by
the retry loop are 10, 8, 9. -/
def ccRetry : Codec :=
  { decode := fun _ => some ⟨10, 10⟩,
    fit := fun i _ => i,
    encode := fun _ q =>
      some (List.replicate (if q = 70 then 10 else if q = 65 then 8 else 9) 0) }

/-- A 5-byte PNG entry (so the keep-original fallback does not apply). -/
def eeRetry : ImageEntry :=
  { path := asciiBytes "p.png", originalSize := 5, data := [1, 2, 3, 4, 5] }

/-- A codec for the retry witness: every quality encodes to 6 bytes. -/
def ccLast : Codec :=
  { decode := fun _ => some ⟨10, 10⟩,
    fit := fun i _ => i,
    encode := fun _ _ => some (List.replicate 6 0) }

/-! #### Concrete inputs for the keep-original witness (C3) -/

/-- A codec whose encoder always produces 12 bytes, never beating the
10-byte original below. -/
def ccKeep : Codec :=
  { decode := fun _ => some ⟨50, 80⟩,
    fit := fun i _ => i,
    encode := fun _ _ => some (List.replicate 12 0) }

/-- Transformer settings for the keep-original witness. -/
def ppKeep : ImageProcessor := { maxDimension := 100, jpegQuality := 70 }

/-- A 10-byte JPEG entry whose dimensions (50×80) are under the maximum. -/
def eeKeep : ImageEntry :=
  { path := asciiBytes "page01.JPG", originalSize := 10,
    data := [9, 8, 7, 6, 5, 4, 3, 2, 1, 0] }

/-! ### The header analyzer (`internal/analyzer/analyzer.go`) -/

/-- `analyzer.AnalysisResult` (the current version, with the estimation
fields omitted: no claim touches them). -/
structure AnalysisResult where
  filePath : ByteStr
  fileSize : Nat
  pageCount : Nat
  maxWidth : Nat
  maxHeight : Nat
  mbPerPage : ℚ
  hasOversized : Bool
  hasNonJPEG : Bool
  needsProcessing : Bool
  skipReason : ByteStr
deriving DecidableEq, Repr

/-- `analyzer.Analyzer` settings. -/
structure Analyzer where
  maxDimension : Nat
  thresholdMBPage : ℚ
deriving DecidableEq, Repr

/-- Decimal digits of `n` (the bytes `strconv` produces for a nonnegative
`int`), with structural fuel so the kernel can evaluate it. -/
def natReprAux : Nat → Nat → ByteStr
  | 0, _ => []
  | f + 1, n => if n < 10 then [48 + n] else natReprAux f (n / 10) ++ [48 + n % 10]

/-- Decimal byte representation of a natural number. -/
def natRepr (n : Nat) : ByteStr := natReprAux (n + 1) n

/-- The numeric value of a digit-byte string (the accumulator loop
`num = num*10 + int(s[i]-48)`). -/
def digitsVal (l : ByteStr) : Nat := l.foldl (fun a c => a * 10 + (c - 48)) 0

/-- `%.2f` rendering of a nonnegative rational (integer part, dot, two
decimals).  The Go code prints a float here; the spec places exact textual
formatting out of scope, and the claims only use that this string is
nonempty. -/
def fmt2dec (q : ℚ) : ByteStr :=
  natRepr ⌊q⌋.toNat ++ [46] ++
    (let c := (⌊q * 100⌋).toNat % 100
     if c < 10 then [48, 48 + c] else natRepr c)

/-- The skip-reason string of `Analyzer.shouldProcess`:
`"already optimized (%.2f MB/page, max %dx%d)"`. -/
def skipReasonFmt (r : AnalysisResult) : ByteStr :=
  asciiBytes "already optimized (" ++ fmt2dec r.mbPerPage ++
    asciiBytes " MB/page, max " ++ natRepr r.maxWidth ++ asciiBytes "x" ++
    natRepr r.maxHeight ++ asciiBytes ")"

/-- `Analyzer.shouldProcess` together with the assignment
`result.NeedsProcessing = a.shouldProcess(result)` (analyzer.go
lines 139, 145-165): process when any image is oversized, or any is
non-JPEG, or MB-per-page exceeds the threshold; otherwise record the
skip reason. -/
def applyVerdict (a : Analyzer) (r : AnalysisResult) : AnalysisResult :=
  if r.hasOversized = true then { r with needsProcessing := true }
  else if r.hasNonJPEG = true then { r with needsProcessing := true }
  else if a.thresholdMBPage < r.mbPerPage then { r with needsProcessing := true }
  else { r with needsProcessing := false, skipReason := skipReasonFmt r }

/-- Whether an entry name has a non-JPEG (but supported) extension — the
condition under which the analyzer sets `HasNonJPEG`. -/
def nonJpegName (name : ByteStr) : Bool :=
  if ¬ toLowerBytes (extBytes name) = jpgExt ∧
     ¬ toLowerBytes (extBytes name) = jpegExt then true else false

/-- One zip entry as the analyzer sees it.  `content` is `none` when
`file.Open()` or `io.ReadAll` fails for this entry. -/
structure ZipEntry where
  name : ByteStr
  isDir : Bool
  content : Option ByteStr
deriving DecidableEq, Repr

/-- The analyzer's hidden-file test: base name starts with `.` or the
full name contains `__MACOSX`. -/
def analyzerHidden (name : ByteStr) : Bool :=
  startsWithBytes (baseNameBytes name) [46] ||
    containsBytes name (asciiBytes "__MACOSX")

/-- Whether the analyzer counts this entry as a page: a non-directory,
non-hidden entry with a supported image extension. -/
def qualifiesA (f : ZipEntry) : Bool :=
  !f.isDir && !analyzerHidden f.name &&
    isSupportedExt (toLowerBytes (extBytes f.name))

/-- The dimensions the analyzer obtains for an entry: `none` when the
entry cannot be opened/read (`content = none`) or when
`image.DecodeConfig` (the codec collaborator `dc`) fails on its bytes. -/
def entryDims (dc : ByteStr → Option (Nat × Nat)) (f : ZipEntry) :
    Option (Nat × Nat) :=
  match f.content with
  | none => none
  | some data => dc data

/-- The per-entry body of the scan loop of `Analyzer.Analyze`
(analyzer.go lines 78-131). -/
def analyzeEntry (maxDim : Nat) (dc : ByteStr → Option (Nat × Nat))
    (r : AnalysisResult) (f : ZipEntry) : AnalysisResult :=
  if f.isDir = true then r
  else if analyzerHidden f.name = true then r
  else
    let ext := toLowerBytes (extBytes f.name)
    if ¬ isSupportedExt ext = true then r
    else
      let r1 := { r with pageCount := r.pageCount + 1 }
      let r2 := if ¬ ext = jpgExt ∧ ¬ ext = jpegExt then
          { r1 with hasNonJPEG := true } else r1
      match entryDims dc f with
      | none => r2
      | some (w, h) =>
        let r3 := if r2.maxWidth < w then { r2 with maxWidth := w } else r2
        let r4 := if r3.maxHeight < h then { r3 with maxHeight := h } else r3
        if maxDim < w ∨ maxDim < h then { r4 with hasOversized := true } else r4

/-- What the analyzer can observe of an archive: the `os.Stat` size
(`none` models a stat failure) and the zip entry listing (`none` models a
`zip.OpenReader` failure). -/
structure ZipInfo where
  statSize : Option Nat
  entries : Option (List ZipEntry)
deriving DecidableEq, Repr

/-- `Analyzer.Analyze` (analyzer.go lines 58-142): stat, open, scan every
entry, compute MB-per-page when there is at least one page, then apply the
verdict. -/
def Analyze (a : Analyzer) (dc : ByteStr → Option (Nat × Nat))
    (path : ByteStr) (z : ZipInfo) : Option AnalysisResult :=
  match z.statSize with
  | none => none
  | some sz =>
    match z.entries with
    | none => none
    | some es =>
      let r0 : AnalysisResult :=
        { filePath := path, fileSize := sz, pageCount := 0, maxWidth := 0,
          maxHeight := 0, mbPerPage := 0, hasOversized := false,
          hasNonJPEG := false, needsProcessing := false, skipReason := [] }
      let r := es.foldl (analyzeEntry a.maxDimension dc) r0
      let r2 := if 0 < r.pageCount then
          { r with mbPerPage := (sz : ℚ) / (r.pageCount : ℚ) / (1024 * 1024) }
        else r
      some (applyVerdict a r2)

/-- The dimension pairs of the qualifying, successfully decoded entries. -/
def qualDims (dc : ByteStr → Option (Nat × Nat)) (es : List ZipEntry) :
    List (Nat × Nat) :=
  es.filterMap (fun f => if qualifiesA f = true then entryDims dc f else none)

/-- Maximum of a list of naturals (0 when empty). -/
def listMaxNat (l : List Nat) : Nat := l.foldr Nat.max 0

/-- The entry-fold stage of `Analyze`: the initial result record followed
by the scan loop. -/
def analyzeCore (a : Analyzer) (dc : ByteStr → Option (Nat × Nat))
    (path : ByteStr) (sz : Nat) (es : List ZipEntry) : AnalysisResult :=
  es.foldl (analyzeEntry a.maxDimension dc)
    { filePath := path, fileSize := sz, pageCount := 0, maxWidth := 0,
      maxHeight := 0, mbPerPage := 0, hasOversized := false,
      hasNonJPEG := false, needsProcessing := false, skipReason := [] }

/-- The MB-per-page stage of `Analyze`: set `mbPerPage` when at least one
page was counted (a zero page count leaves it 0 rather than failing). -/
def analyzeMB (sz : Nat) (r : AnalysisResult) : AnalysisResult :=
  if 0 < r.pageCount then
    { r with mbPerPage := (sz : ℚ) / (r.pageCount : ℚ) / (1024 * 1024) }
  else r

/-! #### Concrete inputs for the analyzer witnesses (C5, C10) -/

/-- Analyzer settings: maximum dimension 1800, threshold 1.5 MB/page. -/
def aW : Analyzer := { maxDimension := 1800, thresholdMBPage := 3 / 2 }

/-- A decode-config collaborator returning 1000×1500 for every payload. -/
def dcW : ByteStr → Option (Nat × Nat) := fun _ => some (1000, 1500)

/-- A 2-MiB single-JPEG-page archive: 2 MB/page exceeds the threshold. -/
def zW : ZipInfo :=
  { statSize := some 2097152,
    entries := some [{ name := asciiBytes "p1.jpg", isDir := false,
                       content := some [1, 2] }] }

/-- An archive holding one readable JPEG page and one corrupt JPEG page
(its `content` is `none`: opening or reading it fails). -/
def zCorrupt : ZipInfo :=
  { statSize := some 4194304,
    entries := some
      [{ name := asciiBytes "p1.jpg", isDir := false, content := some [1, 2] },
       { name := asciiBytes "p2.jpg", isDir := false, content := none }] }

/-- The scan-loop output for `zW` (before the MB-per-page and verdict
stages). -/
def c5core : AnalysisResult :=
  { filePath := asciiBytes "x.cbz", fileSize := 2097152, pageCount := 1,
    maxWidth := 1000, maxHeight := 1500, mbPerPage := 0,
    hasOversized := false, hasNonJPEG := false, needsProcessing := false,
    skipReason := [] }

/-- The analysis result `Analyze` computes for `zW`. -/
def c5res : AnalysisResult :=
  { c5core with mbPerPage := 2, needsProcessing := true }

/-- The scan-loop output for `zCorrupt`. -/
def c10core : AnalysisResult :=
  { filePath := asciiBytes "y.cbz", fileSize := 4194304, pageCount := 2,
    maxWidth := 1000, maxHeight := 1500, mbPerPage := 0,
    hasOversized := false, hasNonJPEG := false, needsProcessing := false,
    skipReason := [] }

/-- The analysis result `Analyze` computes for `zCorrupt`. -/
def c10res : AnalysisResult :=
  { c10core with mbPerPage := 2, needsProcessing := true }

/-! ### Directory batch totals (`internal/processor/pipeline.go`) -/

/-- The fields of a per-file `processor.Result` that feed the batch
aggregates. -/
structure ResultM where
  originalSize : Nat
  compressedSize : Nat
  skipped : Bool
deriving DecidableEq, Repr

/-- The aggregate totals of `processor.BatchResult`. -/
structure BatchTotals where
  totalOriginal : Nat
  totalCompressed : Nat
  totalFiles : Nat
  processedFiles : Nat
  skippedFiles : Nat
  failedFiles : Nat
deriving DecidableEq, Repr

/-- One accumulation step, identical in `processDirectorySequential`
(pipeline.go lines 318-336) and in the result-collection loop of
`processDirectoryParallel` (lines 409-427): an errored file counts as
failed, a skipped result as skipped, any other result as processed while
adding its original and compressed sizes.  `pf` is the deterministic
per-file outcome of `ProcessFile` (`none` models an error). -/
def stepBatch (pf : ByteStr → Option ResultM) (b : BatchTotals)
    (path : ByteStr) : BatchTotals :=
  match pf path with
  | none => { b with failedFiles := b.failedFiles + 1 }
  | some r =>
    if r.skipped then { b with skippedFiles := b.skippedFiles + 1 }
    else { b with processedFiles := b.processedFiles + 1,
                  totalOriginal := b.totalOriginal + r.originalSize,
                  totalCompressed := b.totalCompressed + r.compressedSize }

/-- The zeroed batch with `TotalFiles` preset, as both directory loops
initialise it before accumulating. -/
def initBatch (n : Nat) : BatchTotals :=
  { totalOriginal := 0, totalCompressed := 0, totalFiles := n,
    processedFiles := 0, skippedFiles := 0, failedFiles := 0 }

/-- `processDirectorySequential`: outcomes are accumulated in file-list
order. -/
def seqTotals (pf : ByteStr → Option ResultM) (files : List ByteStr) :
    BatchTotals :=
  files.foldl (stepBatch pf) (initBatch files.length)

/-- `processDirectoryParallel`: the same per-file outcomes are accumulated
in whatever order results arrive from the worker pool (`arrival`, some
permutation of the file list). -/
def parTotals (pf : ByteStr → Option ResultM) (files arrival : List ByteStr) :
    BatchTotals :=
  arrival.foldl (stepBatch pf) (initBatch files.length)

/-- Contribution of one file to the failed-files count. -/
def wFail (pf : ByteStr → Option ResultM) (p : ByteStr) : Nat :=
  match pf p with
  | none => 1
  | some _ => 0

/-- Contribution of one file to the skipped-files count. -/
def wSkip (pf : ByteStr → Option ResultM) (p : ByteStr) : Nat :=
  match pf p with
  | none => 0
  | some r => if r.skipped then 1 else 0

/-- Contribution of one file to the processed-files count. -/
def wProc (pf : ByteStr → Option ResultM) (p : ByteStr) : Nat :=
  match pf p with
  | none => 0
  | some r => if r.skipped then 0 else 1

/-- Contribution of one file to the total original bytes. -/
def wOrig (pf : ByteStr → Option ResultM) (p : ByteStr) : Nat :=
  match pf p with
  | none => 0
  | some r => if r.skipped then 0 else r.originalSize

/-- Contribution of one file to the total compressed bytes. -/
def wComp (pf : ByteStr → Option ResultM) (p : ByteStr) : Nat :=
  match pf p with
  | none => 0
  | some r => if r.skipped then 0 else r.compressedSize

/-- Concrete per-file outcomes for the C9 witness. -/
def pfW : ByteStr → Option ResultM := fun p =>
  if p = asciiBytes "a.cbz" then
    some { originalSize := 100, compressedSize := 60, skipped := false }
  else if p = asciiBytes "b.cbz" then
    some { originalSize := 50, compressedSize := 0, skipped := true }
  else none

/-! ### A flat filesystem model (`internal/backup/backup.go` and the
commit phase of `Pipeline.ProcessFile`) -/

/-- A disk: a finite map from path to file bytes, as an association list
whose first binding wins. -/
abbrev Disk := List (ByteStr × ByteStr)

/-- Bytes at `p`, `none` when no file exists there (`os.Stat` failing with
not-exist). -/
def dGet (d : Disk) (p : ByteStr) : Option ByteStr :=
  (d.find? (fun e => decide (e.1 = p))).map Prod.snd

/-- Remove any file at `p`. -/
def dRemove (d : Disk) (p : ByteStr) : Disk :=
  d.filter (fun e => !decide (e.1 = p))

/-- Write bytes at `p`, replacing any previous file. -/
def dWrite (d : Disk) (p : ByteStr) (b : ByteStr) : Disk :=
  (p, b) :: dRemove d p

/-- `os.Rename` under a fault oracle `ren` (`false` means the OS call
fails): move the file at `src` onto `dst`, overwriting it.  Also fails
when `src` does not exist. -/
def osRename (ren : ByteStr → ByteStr → Bool) (d : Disk)
    (src dst : ByteStr) : Option Disk :=
  match dGet d src with
  | none => none
  | some b => if ren src dst then some (dWrite (dRemove d src) dst b)
              else none

/-- `filepath.Join` of a clean directory and a file name. -/
def joinPath (dir name : ByteStr) : ByteStr := dir ++ [47] ++ name

/-- The stem `path[:len(path)-len(ext)]` used by `uniquePathLocked`. -/
def stemOf (p : ByteStr) : ByteStr := p.take (p.length - (extBytes p).length)

/-- The collision-suffixed path `fmt.Sprintf("%s_%d%s", base, i, ext)`. -/
def suffixPath (stem ext : ByteStr) (i : Nat) : ByteStr :=
  stem ++ [95] ++ natRepr i ++ ext

/-- The search loop of `Manager.uniquePathLocked`: the first index
`i ≥ start` whose suffixed path is unused.  Fuel bounds the search; by
pigeonhole `d.length + 1` candidate paths cannot all be occupied, so the
fuel used below never runs out. -/
def findSuffix (d : Disk) (stem ext : ByteStr) : Nat → Nat → Nat
  | i, 0 => i
  | i, fuel + 1 =>
    if dGet d (suffixPath stem ext i) = none then i
    else findSuffix d stem ext (i + 1) fuel

/-- `Manager.uniquePathLocked` (backup.go lines 74-84). -/
def uniquePathLocked (d : Disk) (p : ByteStr) : ByteStr :=
  suffixPath (stemOf p) (extBytes p)
    (findSuffix d (stemOf p) (extBytes p) 1 (d.length + 1))

/-- `Manager.MoveToBackup` (backup.go lines 24-47) under the rename
oracle: the backup path is backupDir/base, suffixed when that name is
taken; the original is renamed onto it.  `MkdirAll` is a no-op in this
flat model.  Returns the new disk and the chosen backup path. -/
def MoveToBackup (ren : ByteStr → ByteStr → Bool) (bd : ByteStr)
    (d : Disk) (src : ByteStr) : Option (Disk × ByteStr) :=
  let bp0 := joinPath bd (baseNameBytes src)
  let bp := if (dGet d bp0).isSome then uniquePathLocked d bp0 else bp0
  (osRename ren d src bp).map (fun d2 => (d2, bp))

/-- `Manager.RestoreFromBackup` (backup.go lines 62-70): always restores
from the UNsuffixed path backupDir/base, whatever `MoveToBackup` chose. -/
def RestoreFromBackup (ren : ByteStr → ByteStr → Bool) (bd : ByteStr)
    (d : Disk) (orig : ByteStr) : Option Disk :=
  let bp := joinPath bd (baseNameBytes orig)
  match dGet d bp with
  | none => none
  | some _ => osRename ren d bp orig

/-- The per-file outcome of the commit phase. -/
inductive CommitOutcome where
  | ok
  | backupFailed
  | renameFailedRestored
  | criticalBothFailed
deriving DecidableEq, Repr

/-- The commit phase of `Pipeline.ProcessFile` after verification
(pipeline.go lines 215-229): move the original to backup (deleting the
temp on failure); rename the verified temp onto the original path; on
rename failure attempt `RestoreFromBackup`, removing the temp and
reporting "rename failed (original restored)" when the restore succeeds,
and reporting the critical two-failure error when it does not. -/
def commitTail (ren : ByteStr → ByteStr → Bool) (bd : ByteStr) (d : Disk)
    (cbzPath temp : ByteStr) : Disk × CommitOutcome :=
  match MoveToBackup ren bd d cbzPath with
  | none => (dRemove d temp, CommitOutcome.backupFailed)
  | some (d1, _) =>
    match osRename ren d1 temp cbzPath with
    | some d2 => (d2, CommitOutcome.ok)
    | none =>
      match RestoreFromBackup ren bd d1 cbzPath with
      | none => (d1, CommitOutcome.criticalBothFailed)
      | some d3 => (dRemove d3 temp, CommitOutcome.renameFailedRestored)

/-! #### Concrete inputs for C7 and C8 -/

/-- A rename oracle that fails exactly when the source is the temp
archive: the commit rename fails, backup and restore renames succeed. -/
def renC7 : ByteStr → ByteStr → Bool := fun s _ =>
  !(s == asciiBytes "dir/c.cbz.compressed.tmp.cbz")

/-- The disk before the commit phase: a stale backup of the same base
name already sits in the backup directory, the original is at
`dir/c.cbz`, and the verified temp archive exists. -/
def d7 : Disk :=
  [(asciiBytes "bk/c.cbz", [7, 7]),
   (asciiBytes "dir/c.cbz", [1, 2, 3]),
   (asciiBytes "dir/c.cbz.compressed.tmp.cbz", [9, 9])]

/-- An always-succeeding rename oracle. -/
def renAll : ByteStr → ByteStr → Bool := fun _ _ => true

/-- Two files with the same base name in different directories. -/
def d8 : Disk :=
  [(asciiBytes "a/x.cbz", [1]), (asciiBytes "c/x.cbz", [2])]

/-! ### The per-file state machine of `Pipeline.ProcessFile`
(pipeline.go lines 96-235), viewed through its filesystem effects -/

/-- The configuration flags `ProcessFile` consults. -/
structure ConfigM where
  force : Bool
  dryRun : Bool
  verbose : Bool
deriving DecidableEq, Repr

/-- Oracles for the collaborator calls `ProcessFile` makes, in program
order: `os.Stat`, `Analyzer.Analyze` (`none` models an analysis error),
`Reader.Extract`, `Writer.CreateTemp`, the temp stat, the verification
re-extract, `MoveToBackup`, the commit `os.Rename` and
`RestoreFromBackup`. -/
structure FileEnv where
  statOk : Bool
  analysis : Option AnalysisResult
  extractOk : Bool
  writeTempOk : Bool
  statTempOk : Bool
  verifyOk : Bool
  backupOk : Bool
  renameOk : Bool
  restoreOk : Bool

/-- Filesystem effects: the read-side zip extraction, and every disk
write ProcessFile can make — temp creation, temp deletion, the backup
move, the commit rename, the restore move. -/
inductive FsEffect where
  | extract
  | writeTemp
  | removeTemp
  | backupMove
  | renameCommit
  | restoreMove
deriving DecidableEq, Repr

/-- The progress-sink callbacks this trace records. -/
inductive SinkEvent where
  | dryRunFile
  | fileSkipped
deriving DecidableEq, Repr

/-- How `ProcessFile` returns. -/
inductive PFOutcome where
  | errStat
  | errAnalyze
  | dryRunReturn
  | skippedReturn
  | errExtract
  | errWriteTemp
  | errStatTemp
  | errVerify
  | errBackup
  | errRenameRestored
  | errCritical
  | done
deriving DecidableEq, Repr

/-- The post-analysis body of `ProcessFile` (pipeline.go lines 146-234):
extract, transform images in memory (no filesystem effect), write the
temp archive, stat it, verify it by re-extracting, move the original to
backup, rename the temp onto the original; each failure point removes the
temp exactly as the source does. -/
def processFileBody (env : FileEnv) :
    List FsEffect × List SinkEvent × PFOutcome :=
  if env.extractOk = false then
    ([FsEffect.extract], [], PFOutcome.errExtract)
  else if env.writeTempOk = false then
    ([FsEffect.extract, FsEffect.writeTemp], [], PFOutcome.errWriteTemp)
  else if env.statTempOk = false then
    ([FsEffect.extract, FsEffect.writeTemp, FsEffect.removeTemp], [],
     PFOutcome.errStatTemp)
  else if env.verifyOk = false then
    ([FsEffect.extract, FsEffect.writeTemp, FsEffect.extract,
      FsEffect.removeTemp], [], PFOutcome.errVerify)
  else if env.backupOk = false then
    ([FsEffect.extract, FsEffect.writeTemp, FsEffect.extract,
      FsEffect.removeTemp], [], PFOutcome.errBackup)
  else if env.renameOk = false then
    (if env.restoreOk = true then
      ([FsEffect.extract, FsEffect.writeTemp, FsEffect.extract,
        FsEffect.backupMove, FsEffect.restoreMove, FsEffect.removeTemp], [],
       PFOutcome.errRenameRestored)
     else
      ([FsEffect.extract, FsEffect.writeTemp, FsEffect.extract,
        FsEffect.backupMove], [], PFOutcome.errCritical))
  else
    ([FsEffect.extract, FsEffect.writeTemp, FsEffect.extract,
      FsEffect.backupMove, FsEffect.renameCommit], [], PFOutcome.done)

/-- `Pipeline.ProcessFile` (pipeline.go lines 96-235) as an effect trace:
stat; then — only when force mode is off — analyze, return a dry-run
report when dryRun is set, or a skip when analysis says so; then the
processing body.  Note that the dry-run early return sits inside the
`if !force` block, exactly as in the source. -/
def processFileTrace (cfg : ConfigM) (env : FileEnv) :
    List FsEffect × List SinkEvent × PFOutcome :=
  if env.statOk = false then ([], [], PFOutcome.errStat)
  else if cfg.force = false then
    match env.analysis with
    | none => ([], [], PFOutcome.errAnalyze)
    | some analysis =>
      if cfg.dryRun = true then
        ([], [SinkEvent.dryRunFile], PFOutcome.dryRunReturn)
      else if analysis.needsProcessing = false then
        ([], [SinkEvent.fileSkipped], PFOutcome.skippedReturn)
      else processFileBody env
  else processFileBody env

/-- An all-success environment with a needs-processing analysis. -/
def envAll : FileEnv :=
  { statOk := true,
    analysis := some
      { filePath := [], fileSize := 1000, pageCount := 1, maxWidth := 2000,
        maxHeight := 1000, mbPerPage := 0, hasOversized := true,
        hasNonJPEG := false, needsProcessing := true, skipReason := [] },
    extractOk := true, writeTempOk := true, statTempOk := true,
    verifyOk := true, backupOk := true, renameOk := true, restoreOk := true }

/-! ### The directory walk of `Pipeline.ProcessDirectory`
(pipeline.go lines 250-281) -/

mutual
/-- A directory-tree node (a hand-rolled mutual inductive keeps
structural recursion and induction straightforward). -/
inductive FSNode where
  | file : ByteStr → FSNode
  | dir : ByteStr → FSList → FSNode
/-- A list of directory-tree nodes. -/
inductive FSList where
  | nil : FSList
  | cons : FSNode → FSList → FSList
end

/-- The name of a node. -/
def nodeName : FSNode → ByteStr
  | FSNode.file n => n
  | FSNode.dir n _ => n

/-- Modelled from the spec: glob matching for the configured skip-name
patterns ("`*` matches any run of bytes", enough for the documented
patterns such as `._*` and `.DS_Store`).  The pattern matching itself and
its wiring into the walk are code of this repository missing from src/ —
the newest `main.go` passes `SkipPatterns` into the pipeline
configuration, but the pipeline version under src/ predates it — so this
part follows the spec's words: "excluding names matching configured skip
patterns". -/
def globMatch : ByteStr → ByteStr → Bool
  | [], [] => true
  | [], _ :: _ => false
  | 42 :: ps, s =>
    globMatch ps s ||
      (match s with
       | [] => false
       | _ :: s2 => globMatch (42 :: ps) s2)
  | _ :: _, [] => false
  | p :: ps, c :: s => p == c && globMatch ps s
termination_by p s => (p.length, s.length)

/-- Modelled from the spec: a name is skipped when any configured pattern
matches it. -/
def skipMatch (pats : List ByteStr) (name : ByteStr) : Bool :=
  pats.any (fun p => globMatch p name)

/-- Whether the walk collects a file at `p`: extension `.cbz`
case-insensitively, and (spec-modelled) no skip pattern matches its base
name. -/
def cbzKeep (pats : List ByteStr) (p : ByteStr) : Bool :=
  (toLowerBytes (extBytes p) == asciiBytes ".cbz") &&
    !(skipMatch pats (baseNameBytes p))

mutual
/-- The walk callback of `ProcessDirectory` applied to one node at
absolute path `path`: a directory equal to the resolved backup directory
is pruned (`filepath.SkipDir`); with recursion disabled every directory
other than the root is pruned; a file is collected when `cbzKeep`
accepts it. -/
def walkNode (recursive : Bool) (bdAbs : ByteStr) (pats : List ByteStr)
    (root path : ByteStr) : FSNode → List ByteStr
  | FSNode.file _ => if cbzKeep pats path then [path] else []
  | FSNode.dir _ children =>
    if path = bdAbs then []
    else if recursive = false ∧ path ≠ root then []
    else walkList recursive bdAbs pats root path children

/-- The walk over a directory's children, in order. -/
def walkList (recursive : Bool) (bdAbs : ByteStr) (pats : List ByteStr)
    (root path : ByteStr) : FSList → List ByteStr
  | FSList.nil => []
  | FSList.cons c rest =>
    walkNode recursive bdAbs pats root (joinPath path (nodeName c)) c ++
      walkList recursive bdAbs pats root path rest
end

mutual
/-- Specification side: every file in the tree outside the backup
directory's subtree, in traversal order. -/
def filesNode (bdAbs : ByteStr) (path : ByteStr) : FSNode → List ByteStr
  | FSNode.file _ => [path]
  | FSNode.dir _ children =>
    if path = bdAbs then [] else filesList bdAbs path children

/-- Specification side, over a child list. -/
def filesList (bdAbs : ByteStr) (path : ByteStr) : FSList → List ByteStr
  | FSList.nil => []
  | FSList.cons c rest =>
    filesNode bdAbs (joinPath path (nodeName c)) c ++
      filesList bdAbs path rest
end

/-- Specification side: the files sitting directly in the root. -/
def directFiles (root : ByteStr) : FSList → List ByteStr
  | FSList.nil => []
  | FSList.cons (FSNode.file n) rest =>
    joinPath root n :: directFiles root rest
  | FSList.cons (FSNode.dir _ _) rest => directFiles root rest

/-! ### The CBZ reader and natural sort (`internal/cbz/reader.go`) -/

/-- `isDigit` (reader.go lines 150-152): an ASCII digit byte. -/
def isDigitB (c : Nat) : Bool := decide (48 ≤ c) && decide (c ≤ 57)

/-- The scan loop of `naturalLess` (reader.go lines 125-146): when both
positions hold digits, `extractNumber` takes the maximal digit run from
each side (`takeWhile`/`dropWhile` here; `digitsVal` is its accumulator
loop) and the run values decide unless equal; otherwise unequal bytes
decide; `none` means the loop ran out of one string undecided.
Structural fuel keeps the definition kernel-reducible; every step
shortens the strings, so the fuel passed by `naturalLess` suffices. -/
def natLoopF : Nat → ByteStr → ByteStr → Option Bool
  | 0, _, _ => none
  | _ + 1, [], _ => none
  | _ + 1, _ :: _, [] => none
  | f + 1, x :: s, y :: t =>
    if isDigitB x = true ∧ isDigitB y = true then
      if digitsVal ((x :: s).takeWhile isDigitB) ≠
         digitsVal ((y :: t).takeWhile isDigitB) then
        some (decide (digitsVal ((x :: s).takeWhile isDigitB) <
                      digitsVal ((y :: t).takeWhile isDigitB)))
      else natLoopF f ((x :: s).dropWhile isDigitB)
             ((y :: t).dropWhile isDigitB)
    else
      if x ≠ y then some (decide (x < y))
      else natLoopF f s t

/-- The scan loop with its canonical fuel. -/
def natLoop (a b : ByteStr) : Option Bool :=
  natLoopF (a.length + b.length + 1) a b

/-- `naturalLess` (reader.go lines 125-148): the scan loop, and when it
exits undecided, the comparison of the ORIGINAL byte lengths. -/
def naturalLess (a b : ByteStr) : Bool :=
  match natLoop a b with
  | some r => r
  | none => decide (a.length < b.length)

/-- One zip entry as the reader sees it (already read; a read failure
aborts the whole extraction and is outside this claim). -/
structure ZEntry where
  name : ByteStr
  isDir : Bool
  data : ByteStr
deriving DecidableEq, Repr

/-- The reader's hidden-entry test (reader.go lines 74-80). -/
def readerHidden (name : ByteStr) : Bool :=
  startsWithBytes (baseNameBytes name) [46] ||
    startsWithBytes (baseNameBytes name) (asciiBytes "__MACOSX") ||
    containsBytes name (asciiBytes "__MACOSX")

/-- `cbz.Contents`: image entries and preserved other files. -/
structure ContentsM where
  images : List ImageEntry
  others : List (ByteStr × ByteStr)
deriving DecidableEq, Repr

/-- One step of the reader's collection loop (reader.go lines 67-104):
skip directories and hidden entries, classify by supported extension. -/
def classifyEntry (c : ContentsM) (f : ZEntry) : ContentsM :=
  if f.isDir = true then c
  else if readerHidden f.name = true then c
  else if isSupportedExt (toLowerBytes (extBytes f.name)) = true then
    { c with images := c.images ++
        [{ path := f.name, originalSize := f.data.length,
           data := f.data }] }
  else { c with others := c.others ++ [(f.name, f.data)] }

/-- The predicate `sort.Slice` receives, as a "may precede" relation:
entry `i` may come before `j` when `j`'s path is not naturally less than
`i`'s. -/
def imgLe (i j : ImageEntry) : Prop := naturalLess j.path i.path = false

instance : DecidableRel imgLe := fun i j =>
  inferInstanceAs (Decidable (_ = _))

/-- `Reader.Extract` (reader.go lines 54-112) over an entry listing:
collect, then sort the images by natural path order (the `sort.Slice`
call is modelled by insertion sort: Go's contract is a sorted
permutation). -/
def ExtractM (es : List ZEntry) : ContentsM :=
  let c := es.foldl classifyEntry { images := [], others := [] }
  { c with images := List.insertionSort imgLe c.images }

/-- Concrete entries for the C4 witness. -/
def zEntriesW : List ZEntry :=
  [{ name := asciiBytes "page10.jpg", isDir := false, data := [1] },
   { name := asciiBytes "ComicInfo.xml", isDir := false, data := [2] },
   { name := asciiBytes "page2.jpg", isDir := false, data := [3] }]

end Comics

namespace Comics

/-! ## Theorems -/

/-- If every successful encode at or below the start size bound stays at
least `origSize` long, the retry loop never returns a pair whose size is
below `origSize`. -/
theorem retryLoop_snd_ge (encode : Nat → Option ByteStr) (origSize : Nat)
    (hsz : ∀ q d, encode q = some d → origSize ≤ d.length) :
    ∀ (qs : List Nat) (acc : ByteStr × Nat), origSize ≤ acc.2 →
      origSize ≤ (retryLoop encode origSize qs acc).2 := by
  intro apos
  induction apos with
  | nil => intro acc h; simpa [retryLoop] using h
  | cons q qs ih =>
    intro acc h
    unfold retryLoop
    cases henc : encode q with
    | none => simpa using h
    | some d =>
      have hd : origSize ≤ d.length := hsz q d henc
      simp only []
      rw [if_neg (by omega)]
      exact ih (d, d.length) hd

/-- `qualsAux` ignores its fuel argument as long as the fuel is at least
the starting quality. -/
theorem qualsAux_congr :
    ∀ (q f₁ f₂ : Nat), q ≤ f₁ → q ≤ f₂ → qualsAux f₁ q = qualsAux f₂ q := by
  intro q
  induction q using Nat.strong_induction_on with
  | _ q ih =>
    intro f₁ f₂ h₁ h₂
    by_cases h60 : 60 ≤ q
    · obtain ⟨a, rfl⟩ : ∃ a, f₁ = a + 1 := ⟨f₁ - 1, by omega⟩
      obtain ⟨b, rfl⟩ : ∃ b, f₂ = b + 1 := ⟨f₂ - 1, by omega⟩
      simp only [qualsAux, if_pos h60]
      exact congrArg _ (ih (q - 5) (by omega) a b (by omega) (by omega))
    · cases f₁ with
      | zero => cases f₂ with
        | zero => rfl
        | succ b => simp [qualsAux, h60]
      | succ a => cases f₂ with
        | zero => simp [qualsAux, h60]
        | succ b => simp [qualsAux, h60]

/-- C2 (amended): the adaptive retry loop of `ImageProcessor.Process`
attempts qualities `q−5, q−10, …` down to the floor 60; it stops the
moment an attempt's size drops below the original entry's size, and each
attempt overwrites the previously kept candidate, so when no attempt drops
below the original size the loop keeps the LAST attempt made — not
necessarily the smallest one seen (image.go lines 82-101). -/
theorem C2_retry_keeps_last :
    (∀ q, 60 ≤ q → qualitiesFrom q = q :: qualitiesFrom (q - 5)) ∧
    (∀ q, q < 60 → qualitiesFrom q = []) ∧
    (∀ (encode : Nat → Option ByteStr) (origSize q : Nat) (qs : List Nat)
       (acc : ByteStr × Nat) (d : ByteStr),
       encode q = some d → d.length < origSize →
       retryLoop encode origSize (q :: qs) acc = (d, d.length)) ∧
    (∀ (encode : Nat → Option ByteStr) (origSize : Nat) (qs : List Nat)
       (acc : ByteStr × Nat) (qL : Nat),
       qs.getLast? = some qL →
       (∀ q ∈ qs, ∀ d, encode q = some d → origSize ≤ d.length) →
       (∀ q ∈ qs, (encode q).isSome) →
       ∃ dL, encode qL = some dL ∧
         retryLoop encode origSize qs acc = (dL, dL.length)) := by
  refine ⟨?_, ?_, ?_, ?_⟩
  · intro q h60
    show qualsAux q q = q :: qualsAux (q - 5) (q - 5)
    obtain ⟨a, rfl⟩ : ∃ a, q = a + 1 := ⟨q - 1, by omega⟩
    simp only [qualsAux, if_pos h60]
    exact congrArg _ (qualsAux_congr (a + 1 - 5) a (a + 1 - 5) (by omega) le_rfl)
  · intro q h60
    cases q with
    | zero => rfl
    | succ a =>
      simp only [qualitiesFrom, qualsAux, ite_eq_right_iff]
      omega
  · intro encode origSize q qs acc d hq hlt
    unfold retryLoop
    rw [hq]
    simp only [if_pos hlt]
  · intro encode origSize qs
    induction qs with
    | nil => intro acc qL h; simp at h
    | cons q qs ih =>
      intro acc qL hlast hge hsome
      obtain ⟨d, hd⟩ := Option.isSome_iff_exists.mp (hsome q (by simp))
      have hdge : origSize ≤ d.length := hge q (by simp) d hd
      cases qs with
      | nil =>
        have hq : q = qL := by simpa using hlast
        subst hq
        refine ⟨d, hd, ?_⟩
        simp only [retryLoop, hd]
        rw [if_neg (by omega)]
      | cons q2 qs2 =>
        have hlast2 : (q2 :: qs2).getLast? = some qL := by
          simpa [List.getLast?_cons_cons] using hlast
        obtain ⟨dL, hdL, hrec⟩ := ih (d, d.length) qL hlast2
          (fun x hx => hge x (by simp [hx]))
          (fun x hx => hsome x (by simp [hx]))
        refine ⟨dL, hdL, ?_⟩
        simp only [retryLoop, hd]
        rw [if_neg (by omega)]
        exact hrec

/-- Witness for `C2_retry_keeps_last`: the schedule unfolds at 65; the
loop stops at the first attempt below the original size; and with every
attempt 6 bytes long against a 5-byte original over qualities `[65, 60]`,
the kept candidate is the final attempt. -/
theorem C2_witness :
    qualitiesFrom 65 = 65 :: qualitiesFrom 60 ∧
    retryLoop (fun _ => some (List.replicate 3 0)) 5 (60 :: [])
      ([1, 1, 1, 1, 1, 1], 6) = (List.replicate 3 0, 3) ∧
    retryLoop (fun _ => some (List.replicate 6 0)) 5 [65, 60]
      ([], 0) = (List.replicate 6 0, 6) := by
  refine ⟨C2_retry_keeps_last.1 65 (by decide),
          C2_retry_keeps_last.2.2.1 _ 5 60 [] _ _ rfl (by decide), ?_⟩
  obtain ⟨dL, h1, h2⟩ := C2_retry_keeps_last.2.2.2
    (fun _ => some (List.replicate 6 0)) 5 [65, 60] ([], 0) 60 (by decide)
    (by intro q _ d h; cases h; decide)
    (fun q _ => rfl)
  cases h1
  exact h2

/-- C2 counterexample to the claim as stated: with attempt sizes 10 (at
quality 70), 8 (at 65) and 9 (at 60) against a 5-byte original, `Process`
returns the 9-byte final attempt even though the 8-byte attempt at quality
65 — an attempted quality — was smaller: the transformer does not keep the
smallest attempt seen. -/
theorem C2_counterexample :
    Process ppRetry ccRetry eeRetry =
      some { newPath := asciiBytes "p.jpg", data := List.replicate 9 0,
             wasResized := false, wasConverted := true, originalSize := 5,
             newSize := 9 } ∧
    65 ∈ qualitiesFrom (ppRetry.jpegQuality - 5) ∧
    ccRetry.encode ⟨10, 10⟩ 65 = some (List.replicate 8 0) ∧
    (List.replicate 8 0).length < 9 := by decide

/-- C3: for an image entry whose (case-insensitive) extension is `.jpg` or
`.jpeg`, whose decoded dimensions are both at or under the configured
maximum (so no resize occurs), and for which every attempted JPEG
re-encoding is no smaller than the original byte size, `Process` returns
the original bytes verbatim: `Data` equals the original data, `NewPath`
equals the original path, and `WasConverted` is false (image.go
lines 103-115). -/
theorem C3_keep_original (p : ImageProcessor) (codec : Codec)
    (entry : ImageEntry) (img : GoImage)
    (hdec : codec.decode entry.data = some img)
    (hw : img.width ≤ p.maxDimension) (hh : img.height ≤ p.maxDimension)
    (hext : toLowerBytes (extBytes entry.path) = jpgExt ∨
            toLowerBytes (extBytes entry.path) = jpegExt)
    (hsz : ∀ q d, codec.encode img q = some d → entry.originalSize ≤ d.length)
    (d0 : ByteStr) (henc : codec.encode img p.jpegQuality = some d0) :
    Process p codec entry =
      some { newPath := entry.path, data := entry.data, wasResized := false,
             wasConverted := false, originalSize := entry.originalSize,
             newSize := entry.originalSize } := by
  unfold Process
  rw [hdec]
  have hnr : (decide (p.maxDimension < img.width) ||
      decide (p.maxDimension < img.height)) = false := by
    simp only [Bool.or_eq_false_iff, decide_eq_false_iff_not, not_lt]
    exact ⟨hw, hh⟩
  simp only [hnr, if_false, Bool.false_eq_true]
  rw [henc]
  have hjpeg : decide (toLowerBytes (extBytes entry.path) = jpgExt ∨
      toLowerBytes (extBytes entry.path) = jpegExt) = true := by
    exact decide_eq_true hext
  simp only [hjpeg]
  have hd0 : entry.originalSize ≤ d0.length := hsz p.jpegQuality d0 henc
  have hacc : entry.originalSize ≤
      (if entry.originalSize < d0.length then
        retryLoop (codec.encode img) entry.originalSize
          (qualitiesFrom (p.jpegQuality - 5)) (d0, d0.length)
      else (d0, d0.length)).2 := by
    by_cases hlt : entry.originalSize < d0.length
    · rw [if_pos hlt]
      exact retryLoop_snd_ge (codec.encode img) entry.originalSize hsz _ _ hd0
    · rw [if_neg hlt]
      exact hd0
  rw [if_pos ⟨hacc, trivial, trivial⟩]

/-- Witness for `C3_keep_original` at a concrete JPEG entry whose
re-encodings are always 12 bytes against a 10-byte original. -/
theorem C3_witness :
    Process ppKeep ccKeep eeKeep =
      some { newPath := eeKeep.path, data := eeKeep.data, wasResized := false,
             wasConverted := false, originalSize := eeKeep.originalSize,
             newSize := eeKeep.originalSize } :=
  C3_keep_original ppKeep ccKeep eeKeep ⟨50, 80⟩ rfl (by decide) (by decide)
    (by decide)
    (by intro q d h; cases h; decide)
    (List.replicate 12 0) rfl

/-- `if a < b then b else a` is the maximum — the running-max update shape
used by the analyzer. -/
theorem ite_lt_eq_max (a b : Nat) : (if a < b then b else a) = Nat.max a b := by
  by_cases h1 : a < b
  · rw [if_pos h1]
    exact (Nat.max_eq_right (Nat.le_of_lt h1)).symm
  · rw [if_neg h1]
    exact (Nat.max_eq_left (Nat.not_lt.mp h1)).symm

/-- An entry the analyzer does not count (directory, hidden, or
unsupported extension) leaves the running result unchanged. -/
theorem analyzeEntry_of_not_qual (m : Nat) (dc : ByteStr → Option (Nat × Nat))
    (r : AnalysisResult) (f : ZipEntry) (h : qualifiesA f = false) :
    analyzeEntry m dc r f = r := by
  unfold analyzeEntry
  unfold qualifiesA at h
  by_cases h1 : f.isDir = true
  · rw [if_pos h1]
  · rw [if_neg h1]
    by_cases h2 : analyzerHidden f.name = true
    · rw [if_pos h2]
    · rw [if_neg h2]
      have h3 : isSupportedExt (toLowerBytes (extBytes f.name)) = false := by
        rw [Bool.not_eq_true] at h1 h2
        simpa [h1, h2] using h
      rw [if_pos (by simp [h3])]

/-- A qualifying entry bumps the page count, or-accumulates the non-JPEG
and oversized flags, and max-accumulates the dimensions — where a corrupt
entry (`entryDims` is `none`) contributes nothing beyond the page count. -/
theorem analyzeEntry_of_qual (m : Nat) (dc : ByteStr → Option (Nat × Nat))
    (r : AnalysisResult) (f : ZipEntry) (h : qualifiesA f = true) :
    analyzeEntry m dc r f =
      { r with
        pageCount := r.pageCount + 1,
        hasNonJPEG := r.hasNonJPEG || nonJpegName f.name,
        maxWidth := (match entryDims dc f with
          | none => r.maxWidth
          | some wh => Nat.max r.maxWidth wh.1),
        maxHeight := (match entryDims dc f with
          | none => r.maxHeight
          | some wh => Nat.max r.maxHeight wh.2),
        hasOversized := r.hasOversized ||
          (match entryDims dc f with
           | none => false
           | some wh => decide (m < wh.1) || decide (m < wh.2)) } := by
  unfold analyzeEntry
  simp only [qualifiesA, Bool.and_eq_true, Bool.not_eq_true'] at h
  obtain ⟨⟨h1, h2⟩, h3⟩ := h
  rw [if_neg (by simp [h1]), if_neg (by simp [h2]), if_neg (by simp [h3])]
  by_cases hnj : ¬ toLowerBytes (extBytes f.name) = jpgExt ∧
      ¬ toLowerBytes (extBytes f.name) = jpegExt
  · simp only [nonJpegName, if_pos hnj]
    rcases hdims : entryDims dc f with _ | ⟨w, hgt⟩
    · simp [hdims]
    · simp only [hdims]
      by_cases hw : r.maxWidth < w
      all_goals by_cases hh : r.maxHeight < hgt
      all_goals by_cases hov : m < w ∨ m < hgt
      all_goals simp [hw, hh, hov, ite_lt_eq_max] <;> omega
  · simp only [nonJpegName, if_neg hnj]
    rcases hdims : entryDims dc f with _ | ⟨w, hgt⟩
    · simp [hdims]
    · simp only [hdims]
      by_cases hw : r.maxWidth < w
      all_goals by_cases hh : r.maxHeight < hgt
      all_goals by_cases hov : m < w ∨ m < hgt
      all_goals simp [hw, hh, hov, ite_lt_eq_max] <;> omega

/-- Characterisation of the analyzer's scan loop: folding `analyzeEntry`
over the entry list adds the number of qualifying entries to the page
count, or-accumulates the non-JPEG and oversized flags, max-accumulates
the decodable dimensions, and touches nothing else.  Entries that cannot
be opened, read or decoded appear in the page count but in none of the
dimension aggregates. -/
theorem foldA_spec (m : Nat) (dc : ByteStr → Option (Nat × Nat)) :
    ∀ (es : List ZipEntry) (r : AnalysisResult),
      es.foldl (analyzeEntry m dc) r =
        { r with
          pageCount := r.pageCount + (es.filter (fun f => qualifiesA f)).length,
          maxWidth := Nat.max r.maxWidth
            (listMaxNat ((qualDims dc es).map Prod.fst)),
          maxHeight := Nat.max r.maxHeight
            (listMaxNat ((qualDims dc es).map Prod.snd)),
          hasOversized := r.hasOversized || (qualDims dc es).any
            (fun wh => decide (m < wh.1) || decide (m < wh.2)),
          hasNonJPEG := r.hasNonJPEG ||
            es.any (fun f => qualifiesA f && nonJpegName f.name) } := by
  intro es
  induction es with
  | nil =>
    intro r
    simp [qualDims, listMaxNat]
  | cons f es ih =>
    intro r
    rw [List.foldl_cons]
    by_cases hq : qualifiesA f = true
    · rw [analyzeEntry_of_qual m dc r f hq, ih]
      rcases hdims : entryDims dc f with _ | ⟨w, hgt⟩
      · simp only [qualDims, List.filterMap_cons, List.filter_cons, hq,
          hdims, if_pos hq]
        simp [hq, hdims, Nat.add_assoc, Bool.or_assoc, qualDims]
        omega
      · simp only [qualDims, List.filterMap_cons, List.filter_cons, hq,
          hdims, if_pos hq]
        simp [hq, hdims, Nat.add_assoc, Bool.or_assoc, qualDims, listMaxNat,
          Nat.max_assoc]
        omega
    · rw [analyzeEntry_of_not_qual m dc r f (Bool.not_eq_true _ ▸ hq), ih]
      have hq2 : qualifiesA f = false := Bool.not_eq_true _ ▸ hq
      simp [qualDims, List.filter_cons, hq2]

/-- `applyVerdict` only writes `needsProcessing` and `skipReason`; every
other field of the analysis result is preserved. -/
theorem applyVerdict_preserves (a : Analyzer) (r : AnalysisResult) :
    (applyVerdict a r).pageCount = r.pageCount ∧
    (applyVerdict a r).maxWidth = r.maxWidth ∧
    (applyVerdict a r).maxHeight = r.maxHeight ∧
    (applyVerdict a r).hasOversized = r.hasOversized ∧
    (applyVerdict a r).hasNonJPEG = r.hasNonJPEG ∧
    (applyVerdict a r).mbPerPage = r.mbPerPage := by
  unfold applyVerdict
  repeat' split
  all_goals exact ⟨rfl, rfl, rfl, rfl, rfl, rfl⟩

/-- The skip-reason string is never empty: it starts with the literal text
"already optimized (". -/
theorem skipReasonFmt_ne_nil (r : AnalysisResult) : skipReasonFmt r ≠ [] := by
  unfold skipReasonFmt
  intro h
  have h2 := congrArg List.length h
  simp [asciiBytes] at h2

/-- The verdict invariant, given that the incoming skip reason is empty
(as it is when `Analyze` reaches the verdict): the result needs processing
iff oversized or non-JPEG or over the MB-per-page threshold, and the skip
reason is nonempty iff the result does not need processing. -/
theorem applyVerdict_iff (a : Analyzer) (r : AnalysisResult)
    (h : r.skipReason = []) :
    ((applyVerdict a r).needsProcessing = true ↔
      ((applyVerdict a r).hasOversized = true ∨
       (applyVerdict a r).hasNonJPEG = true ∨
       a.thresholdMBPage < (applyVerdict a r).mbPerPage)) ∧
    ((applyVerdict a r).skipReason ≠ [] ↔
      (applyVerdict a r).needsProcessing = false) := by
  unfold applyVerdict
  by_cases h1 : r.hasOversized = true
  · simp [h1, h]
  · rw [if_neg h1]
    by_cases h2 : r.hasNonJPEG = true
    · simp [h2, h]
    · rw [if_neg h2]
      by_cases h3 : a.thresholdMBPage < r.mbPerPage
      · simp [h3, h, h1, h2]
      · simp [h3, h1, h2, skipReasonFmt_ne_nil]

/-- Every field of the analysis result other than `mbPerPage`,
`needsProcessing` and `skipReason`, after `Analyze` succeeds, comes
straight from the entry fold. -/
theorem Analyze_eq (a : Analyzer) (dc : ByteStr → Option (Nat × Nat))
    (path : ByteStr) (sz : Nat) (es : List ZipEntry) (z : ZipInfo)
    (h1 : z.statSize = some sz) (h2 : z.entries = some es) :
    Analyze a dc path z =
      some (applyVerdict a (analyzeMB sz (analyzeCore a dc path sz es))) := by
  unfold Analyze
  rw [h1, h2]
  rfl

/-- `analyzeMB` only writes `mbPerPage`. -/
theorem analyzeMB_preserves (sz : Nat) (r : AnalysisResult) :
    (analyzeMB sz r).pageCount = r.pageCount ∧
    (analyzeMB sz r).maxWidth = r.maxWidth ∧
    (analyzeMB sz r).maxHeight = r.maxHeight ∧
    (analyzeMB sz r).hasOversized = r.hasOversized ∧
    (analyzeMB sz r).hasNonJPEG = r.hasNonJPEG ∧
    (analyzeMB sz r).skipReason = r.skipReason := by
  unfold analyzeMB
  split
  all_goals exact ⟨rfl, rfl, rfl, rfl, rfl, rfl⟩

/-- C10: `Analyze` fails only when the archive itself cannot be stat-ed or
opened as a zip; it never fails because of an individual entry.  When it
succeeds, an entry that cannot be opened, read or header-decoded still
increments `PageCount` but contributes nothing to `MaxWidth`, `MaxHeight`
or the oversized flag: the page count equals the number of qualifying
entries while the dimension aggregates range only over the decodable ones
(analyzer.go lines 63-75, 94-131). -/
theorem C10_corrupt_entries (a : Analyzer) (dc : ByteStr → Option (Nat × Nat))
    (path : ByteStr) (z : ZipInfo) :
    ((Analyze a dc path z).isSome ↔
      (z.statSize.isSome ∧ z.entries.isSome)) ∧
    (∀ sz es, z.statSize = some sz → z.entries = some es →
      ∃ r, Analyze a dc path z = some r ∧
        r.pageCount = (es.filter (fun f => qualifiesA f)).length ∧
        r.maxWidth = listMaxNat ((qualDims dc es).map Prod.fst) ∧
        r.maxHeight = listMaxNat ((qualDims dc es).map Prod.snd) ∧
        r.hasOversized = (qualDims dc es).any
          (fun wh => decide (a.maxDimension < wh.1) ||
                     decide (a.maxDimension < wh.2))) := by
  constructor
  · unfold Analyze
    rcases hz1 : z.statSize with _ | sz
    · simp
    · rcases hz2 : z.entries with _ | es
      · simp
      · simp
  · intro sz es h1 h2
    refine ⟨_, Analyze_eq a dc path sz es z h1 h2, ?_⟩
    obtain ⟨p1, p2, p3, p4, -, -⟩ :=
      applyVerdict_preserves a (analyzeMB sz (analyzeCore a dc path sz es))
    obtain ⟨q1, q2, q3, q4, -, -⟩ :=
      analyzeMB_preserves sz (analyzeCore a dc path sz es)
    rw [p1, p2, p3, p4, q1, q2, q3, q4]
    unfold analyzeCore
    rw [foldA_spec]
    simp

/-- C5: whenever the analyzer returns a result, that result needs
processing iff it has an oversized image, or a non-JPEG image, or its
MB-per-page strictly exceeds the configured threshold; and its skip reason
is nonempty iff it does not need processing (analyzer.go lines 139,
145-165). -/
theorem C5_verdict (a : Analyzer) (dc : ByteStr → Option (Nat × Nat))
    (path : ByteStr) (z : ZipInfo) (r : AnalysisResult)
    (h : Analyze a dc path z = some r) :
    (r.needsProcessing = true ↔
      (r.hasOversized = true ∨ r.hasNonJPEG = true ∨
       a.thresholdMBPage < r.mbPerPage)) ∧
    (r.skipReason ≠ [] ↔ r.needsProcessing = false) := by
  rcases hz1 : z.statSize with _ | sz
  · rw [Analyze, hz1] at h
    exact absurd h (by simp)
  rcases hz2 : z.entries with _ | es
  · rw [Analyze, hz1, hz2] at h
    exact absurd h (by simp)
  rw [Analyze_eq a dc path sz es z hz1 hz2] at h
  have hr := Option.some.inj h
  subst hr
  apply applyVerdict_iff
  have := (analyzeMB_preserves sz (analyzeCore a dc path sz es)).2.2.2.2.2
  rw [this]
  unfold analyzeCore
  rw [foldA_spec]

/-- Witness for `C5_verdict` at the 2-MiB single-page archive `zW`: the
verdict is processing-needed (2 MB/page exceeds 1.5) with an empty skip
reason. -/
theorem C5_witness :
    Analyze aW dcW (asciiBytes "x.cbz") zW = some c5res ∧
    (c5res.needsProcessing = true ↔
      (c5res.hasOversized = true ∨ c5res.hasNonJPEG = true ∨
       aW.thresholdMBPage < c5res.mbPerPage)) ∧
    (c5res.skipReason ≠ [] ↔ c5res.needsProcessing = false) := by
  have hcore : analyzeCore aW dcW (asciiBytes "x.cbz") 2097152
      [{ name := asciiBytes "p1.jpg", isDir := false, content := some [1, 2] }] =
      c5core := by decide
  have hmb : analyzeMB 2097152 c5core = { c5core with mbPerPage := 2 } := by
    unfold analyzeMB
    rw [if_pos (by decide)]
    simp only [c5core, AnalysisResult.mk.injEq]
    norm_num
  have happ : applyVerdict aW { c5core with mbPerPage := 2 } = c5res := by
    unfold applyVerdict
    rw [if_neg (by decide), if_neg (by decide),
        if_pos (show aW.thresholdMBPage <
          ({ c5core with mbPerPage := 2 } : AnalysisResult).mbPerPage by
            show (3 / 2 : ℚ) < 2
            norm_num)]
    rfl
  have h : Analyze aW dcW (asciiBytes "x.cbz") zW = some c5res := by
    rw [Analyze_eq aW dcW (asciiBytes "x.cbz") 2097152 _ zW rfl rfl,
        hcore, hmb, happ]
  exact ⟨h, (C5_verdict aW dcW (asciiBytes "x.cbz") zW c5res h).1,
            (C5_verdict aW dcW (asciiBytes "x.cbz") zW c5res h).2⟩

/-- Witness for `C10_corrupt_entries` at `zCorrupt`: analysis succeeds even
though the second page cannot be read, that page is counted (page count 2)
and the dimension aggregates come from the readable page alone. -/
theorem C10_witness :
    (Analyze aW dcW (asciiBytes "y.cbz") zCorrupt).isSome = true ∧
    Analyze aW dcW (asciiBytes "y.cbz") zCorrupt = some c10res ∧
    c10res.pageCount = 2 ∧ c10res.maxWidth = 1000 ∧ c10res.maxHeight = 1500 ∧
    c10res.hasOversized = false := by
  have hth := C10_corrupt_entries aW dcW (asciiBytes "y.cbz") zCorrupt
  have hsome : (Analyze aW dcW (asciiBytes "y.cbz") zCorrupt).isSome = true :=
    hth.1.mpr ⟨by decide, by decide⟩
  have hcore : analyzeCore aW dcW (asciiBytes "y.cbz") 4194304
      [{ name := asciiBytes "p1.jpg", isDir := false, content := some [1, 2] },
       { name := asciiBytes "p2.jpg", isDir := false, content := none }] =
      c10core := by decide
  have hmb : analyzeMB 4194304 c10core = { c10core with mbPerPage := 2 } := by
    unfold analyzeMB
    rw [if_pos (by decide)]
    simp only [c10core, AnalysisResult.mk.injEq]
    norm_num
  have happ : applyVerdict aW { c10core with mbPerPage := 2 } = c10res := by
    unfold applyVerdict
    rw [if_neg (by decide), if_neg (by decide),
        if_pos (show aW.thresholdMBPage <
          ({ c10core with mbPerPage := 2 } : AnalysisResult).mbPerPage by
            show (3 / 2 : ℚ) < 2
            norm_num)]
    rfl
  have hc : Analyze aW dcW (asciiBytes "y.cbz") zCorrupt = some c10res := by
    rw [Analyze_eq aW dcW (asciiBytes "y.cbz") 4194304 _ zCorrupt rfl rfl,
        hcore, hmb, happ]
  obtain ⟨r, hr, h1, h2, h3, h4⟩ := hth.2 4194304 _ rfl rfl
  have hrc : r = c10res := Option.some.inj (hr.symm.trans hc)
  subst hrc
  exact ⟨hsome, hc, h1.trans (by decide), h2.trans (by decide),
         h3.trans (by decide), h4.trans (by decide)⟩

/-- Folding the batch step adds, field by field, the sum of the per-file
contributions: each file's effect on the totals is independent of its
position. -/
theorem foldBatch_fields (pf : ByteStr → Option ResultM) :
    ∀ (l : List ByteStr) (b : BatchTotals),
      (l.foldl (stepBatch pf) b).failedFiles =
        b.failedFiles + (l.map (wFail pf)).sum ∧
      (l.foldl (stepBatch pf) b).skippedFiles =
        b.skippedFiles + (l.map (wSkip pf)).sum ∧
      (l.foldl (stepBatch pf) b).processedFiles =
        b.processedFiles + (l.map (wProc pf)).sum ∧
      (l.foldl (stepBatch pf) b).totalOriginal =
        b.totalOriginal + (l.map (wOrig pf)).sum ∧
      (l.foldl (stepBatch pf) b).totalCompressed =
        b.totalCompressed + (l.map (wComp pf)).sum ∧
      (l.foldl (stepBatch pf) b).totalFiles = b.totalFiles := by
  intro l
  induction l with
  | nil => intro b; simp
  | cons p l ih =>
    intro b
    obtain ⟨bo, bc, bf, bp, bs, bfa⟩ := b
    rw [List.foldl_cons]
    rcases hp : pf p with _ | r
    · have hstep : stepBatch pf ⟨bo, bc, bf, bp, bs, bfa⟩ p =
          ⟨bo, bc, bf, bp, bs, bfa + 1⟩ := by
        unfold stepBatch; rw [hp]
      have h1 : wFail pf p = 1 := by unfold wFail; rw [hp]
      have h2 : wSkip pf p = 0 := by unfold wSkip; rw [hp]
      have h3 : wProc pf p = 0 := by unfold wProc; rw [hp]
      have h4 : wOrig pf p = 0 := by unfold wOrig; rw [hp]
      have h5 : wComp pf p = 0 := by unfold wComp; rw [hp]
      rw [hstep]
      obtain ⟨i1, i2, i3, i4, i5, i6⟩ := ih ⟨bo, bc, bf, bp, bs, bfa + 1⟩
      simp only [List.map_cons, List.sum_cons, i1, i2, i3, i4, i5, i6,
        h1, h2, h3, h4, h5]
      refine ⟨by omega, by omega, by omega, by omega, by omega, by trivial⟩
    · by_cases hs : r.skipped = true
      · have hstep : stepBatch pf ⟨bo, bc, bf, bp, bs, bfa⟩ p =
            ⟨bo, bc, bf, bp, bs + 1, bfa⟩ := by
          unfold stepBatch; rw [hp]; simp [hs]
        have h1 : wFail pf p = 0 := by unfold wFail; rw [hp]
        have h2 : wSkip pf p = 1 := by unfold wSkip; rw [hp]; simp [hs]
        have h3 : wProc pf p = 0 := by unfold wProc; rw [hp]; simp [hs]
        have h4 : wOrig pf p = 0 := by unfold wOrig; rw [hp]; simp [hs]
        have h5 : wComp pf p = 0 := by unfold wComp; rw [hp]; simp [hs]
        rw [hstep]
        obtain ⟨i1, i2, i3, i4, i5, i6⟩ := ih ⟨bo, bc, bf, bp, bs + 1, bfa⟩
        simp only [List.map_cons, List.sum_cons, i1, i2, i3, i4, i5, i6,
          h1, h2, h3, h4, h5]
        refine ⟨by omega, by omega, by omega, by omega, by omega, by trivial⟩
      · have hstep : stepBatch pf ⟨bo, bc, bf, bp, bs, bfa⟩ p =
            ⟨bo + r.originalSize, bc + r.compressedSize, bf, bp + 1, bs, bfa⟩ := by
          unfold stepBatch; rw [hp]; simp [hs]
        have h1 : wFail pf p = 0 := by unfold wFail; rw [hp]
        have h2 : wSkip pf p = 0 := by unfold wSkip; rw [hp]; simp [hs]
        have h3 : wProc pf p = 1 := by unfold wProc; rw [hp]; simp [hs]
        have h4 : wOrig pf p = r.originalSize := by
          unfold wOrig; rw [hp]; simp [hs]
        have h5 : wComp pf p = r.compressedSize := by
          unfold wComp; rw [hp]; simp [hs]
        rw [hstep]
        obtain ⟨i1, i2, i3, i4, i5, i6⟩ :=
          ih ⟨bo + r.originalSize, bc + r.compressedSize, bf, bp + 1, bs, bfa⟩
        simp only [List.map_cons, List.sum_cons, i1, i2, i3, i4, i5, i6,
          h1, h2, h3, h4, h5]
        refine ⟨by omega, by omega, by omega, by omega, by omega, by trivial⟩

/-- C9: for the same set of files and the same deterministic per-file
outcomes, the sequential path (workers = 1) and the parallel worker pool
(any number of workers, hence any arrival permutation of the results)
produce identical batch aggregates: `ProcessedFiles`, `SkippedFiles`,
`FailedFiles`, `TotalFiles`, `TotalOriginal` and `TotalCompressed`
(pipeline.go lines 306-362 and 365-453). -/
theorem C9_worker_equivalence (pf : ByteStr → Option ResultM)
    (files arrival : List ByteStr) (h : arrival.Perm files) :
    parTotals pf files arrival = seqTotals pf files := by
  obtain ⟨p1, p2, p3, p4, p5, p6⟩ :=
    foldBatch_fields pf arrival (initBatch files.length)
  obtain ⟨q1, q2, q3, q4, q5, q6⟩ :=
    foldBatch_fields pf files (initBatch files.length)
  have hsum : ∀ w : ByteStr → Nat,
      (arrival.map w).sum = (files.map w).sum :=
    fun w => (h.map w).sum_eq
  unfold parTotals seqTotals
  have e1 := p1.trans ((congrArg _ (hsum (wFail pf))).trans q1.symm)
  have e2 := p2.trans ((congrArg _ (hsum (wSkip pf))).trans q2.symm)
  have e3 := p3.trans ((congrArg _ (hsum (wProc pf))).trans q3.symm)
  have e4 := p4.trans ((congrArg _ (hsum (wOrig pf))).trans q4.symm)
  have e5 := p5.trans ((congrArg _ (hsum (wComp pf))).trans q5.symm)
  have e6 := p6.trans q6.symm
  cases hA : arrival.foldl (stepBatch pf) (initBatch files.length)
  cases hB : files.foldl (stepBatch pf) (initBatch files.length)
  rw [hA, hB] at e1 e2 e3 e4 e5 e6
  simp only at e1 e2 e3 e4 e5 e6
  simp [e1, e2, e3, e4, e5, e6]

/-- Witness for `C9_worker_equivalence`: two files processed in swapped
arrival order give the same aggregates — one processed (100 → 60 bytes)
and one skipped. -/
theorem C9_witness :
    parTotals pfW [asciiBytes "a.cbz", asciiBytes "b.cbz"]
      [asciiBytes "b.cbz", asciiBytes "a.cbz"] =
      seqTotals pfW [asciiBytes "a.cbz", asciiBytes "b.cbz"] ∧
    seqTotals pfW [asciiBytes "a.cbz", asciiBytes "b.cbz"] =
      { totalOriginal := 100, totalCompressed := 60, totalFiles := 2,
        processedFiles := 1, skippedFiles := 1, failedFiles := 0 } :=
  ⟨C9_worker_equivalence pfW
      [asciiBytes "a.cbz", asciiBytes "b.cbz"]
      [asciiBytes "b.cbz", asciiBytes "a.cbz"] (by decide),
   by decide⟩

/-- C7 (code bug): with a stale same-named file already in the backup
directory, a successful backup (which therefore used the `_1` suffix), a
failing commit rename and a "successful" restore, the commit phase reports
rename-failed-original-restored and removes the temp file — but the
original path now holds the stale backup's bytes `[7, 7]`, not the
pre-processing bytes `[1, 2, 3]` (which sit in `bk/c_1.cbz`):
`RestoreFromBackup` restores `backupDir/base` while `MoveToBackup` had
chosen the suffixed name (backup.go lines 37-38 versus 62-63). -/
theorem C7_restore_wrong_file :
    (commitTail renC7 (asciiBytes "bk") d7 (asciiBytes "dir/c.cbz")
      (asciiBytes "dir/c.cbz.compressed.tmp.cbz")).2 =
      CommitOutcome.renameFailedRestored ∧
    dGet (commitTail renC7 (asciiBytes "bk") d7 (asciiBytes "dir/c.cbz")
      (asciiBytes "dir/c.cbz.compressed.tmp.cbz")).1
      (asciiBytes "dir/c.cbz") = some [7, 7] ∧
    dGet d7 (asciiBytes "dir/c.cbz") = some [1, 2, 3] ∧
    ([7, 7] : ByteStr) ≠ [1, 2, 3] ∧
    dGet (commitTail renC7 (asciiBytes "bk") d7 (asciiBytes "dir/c.cbz")
      (asciiBytes "dir/c.cbz.compressed.tmp.cbz")).1
      (asciiBytes "dir/c.cbz.compressed.tmp.cbz") = none ∧
    dGet (commitTail renC7 (asciiBytes "bk") d7 (asciiBytes "dir/c.cbz")
      (asciiBytes "dir/c.cbz.compressed.tmp.cbz")).1
      (asciiBytes "bk/c_1.cbz") = some [1, 2, 3] := by decide

/-- Appending one digit multiplies the value by ten and adds the digit. -/
theorem digitsVal_append_digit (xs : ByteStr) (c : Nat) :
    digitsVal (xs ++ [c]) = digitsVal xs * 10 + (c - 48) := by
  unfold digitsVal
  rw [List.foldl_append]
  rfl

/-- With enough fuel, reading back the decimal representation returns the
number. -/
theorem natReprAux_val : ∀ (fuel n : Nat), n < 10 ^ fuel →
    digitsVal (natReprAux fuel n) = n := by
  intro fuel
  induction fuel with
  | zero =>
    intro n hn
    interval_cases n
    rfl
  | succ fuel ih =>
    intro n hn
    unfold natReprAux
    by_cases h10 : n < 10
    · rw [if_pos h10]
      unfold digitsVal
      simp
    · rw [if_neg h10]
      rw [digitsVal_append_digit]
      have hdiv : n / 10 < 10 ^ fuel := by
        rw [Nat.div_lt_iff_lt_mul (by norm_num)]
        calc n < 10 ^ (fuel + 1) := hn
        _ = 10 ^ fuel * 10 := by rw [Nat.pow_succ]
      rw [ih (n / 10) hdiv]
      omega

/-- The decimal representation is injective. -/
theorem natRepr_inj {a b : Nat} (h : natRepr a = natRepr b) : a = b := by
  have hp : ∀ n : Nat, n < 10 ^ (n + 1) := fun n =>
    Nat.lt_of_lt_of_le (Nat.lt_pow_self (by norm_num) n)
      (Nat.pow_le_pow_right (by norm_num) (Nat.le_succ n))
  have ha := natReprAux_val (a + 1) a (hp a)
  have hb := natReprAux_val (b + 1) b (hp b)
  rw [← ha, ← hb]
  unfold natRepr at h
  rw [h]

/-- The decimal representation is never empty. -/
theorem natRepr_ne_nil (n : Nat) : natRepr n ≠ [] := by
  unfold natRepr natReprAux
  by_cases h : n < 10
  · rw [if_pos h]
    simp
  · rw [if_neg h]
    simp

/-- Lookup after removal: the removed path is gone, others unchanged. -/
theorem dGet_dRemove (d : Disk) (p q : ByteStr) :
    dGet (dRemove d p) q = if q = p then none else dGet d q := by
  induction d with
  | nil =>
    simp only [dRemove, List.filter_nil, dGet, List.find?_nil, Option.map_none']
    split
    all_goals rfl
  | cons e d ih =>
    by_cases hep : e.1 = p
    · have hrm : dRemove (e :: d) p = dRemove d p := by
        simp [dRemove, List.filter_cons, hep]
      rw [hrm, ih]
      by_cases hq : q = p
      · rw [if_pos hq, if_pos hq]
      · rw [if_neg hq, if_neg hq]
        have hne : (decide (e.1 = q)) = false := by
          simp only [decide_eq_false_iff_not]
          rw [hep]
          exact fun h => hq h.symm
        unfold dGet
        rw [List.find?_cons_of_neg d (by simp [hne])]
    · have hrm : dRemove (e :: d) p = e :: dRemove d p := by
        simp [dRemove, List.filter_cons, hep]
      rw [hrm]
      by_cases heq : e.1 = q
      · have hq : ¬ q = p := fun h => hep (heq.trans h)
        rw [if_neg hq]
        have hpos : (fun x : ByteStr × ByteStr => decide (x.1 = q)) e = true := by
          simp [heq]
        unfold dGet
        rw [List.find?_cons_of_pos (dRemove d p) hpos,
            List.find?_cons_of_pos d hpos]
      · have hneg : ¬ (fun x : ByteStr × ByteStr => decide (x.1 = q)) e = true := by
          simp [heq]
        unfold dGet
        rw [List.find?_cons_of_neg (dRemove d p) hneg,
            List.find?_cons_of_neg d hneg]
        exact ih

/-- Lookup after a write: the written path holds the new bytes, others
are unchanged. -/
theorem dGet_dWrite (d : Disk) (p b q : ByteStr) :
    dGet (dWrite d p b) q = if q = p then some b else dGet d q := by
  unfold dWrite
  by_cases hq : q = p
  · subst hq
    unfold dGet
    rw [List.find?_cons_of_pos (dRemove d q) (by simp)]
    rw [if_pos rfl]
    rfl
  · unfold dGet
    rw [List.find?_cons_of_neg (dRemove d p)
      (by simp only [decide_eq_true_eq]; exact fun h => hq h.symm)]
    rw [if_neg hq]
    have h2 := dGet_dRemove d p q
    rw [if_neg hq] at h2
    exact h2

/-- The collision-suffixed path determines its index. -/
theorem suffixPath_inj (stem ext : ByteStr) {i j : Nat}
    (h : suffixPath stem ext i = suffixPath stem ext j) : i = j := by
  unfold suffixPath at h
  have h1 := List.append_cancel_right h
  have h2 := List.append_cancel_left h1
  exact natRepr_inj h2

/-- An occupied path occurs among the disk's keys. -/
theorem mem_keys_of_dGet_ne_none (d : Disk) (p : ByteStr)
    (h : dGet d p ≠ none) : p ∈ d.map Prod.fst := by
  rcases hfind : d.find? (fun e => decide (e.1 = p)) with _ | e
  · exact absurd (by simp [dGet, hfind]) h
  · have he := List.find?_some hfind
    have hmem := List.mem_of_find?_eq_some hfind
    have hp : e.1 = p := of_decide_eq_true he
    exact hp ▸ List.mem_map_of_mem Prod.fst hmem

/-- Pigeonhole: among the first `d.length + 1` candidate suffixes, at
least one path is unused. -/
theorem exists_free_suffix (d : Disk) (stem ext : ByteStr) :
    ∃ j, 1 ≤ j ∧ j < d.length + 2 ∧
      dGet d (suffixPath stem ext j) = none := by
  by_contra hcon
  push_neg at hcon
  have hmem : ∀ k, k < d.length + 1 →
      suffixPath stem ext (k + 1) ∈ d.map Prod.fst := by
    intro k hk
    exact mem_keys_of_dGet_ne_none d _ (hcon (k + 1) (by omega) (by omega))
  have hnodup : ((List.range (d.length + 1)).map
      (fun k => suffixPath stem ext (k + 1))).Nodup := by
    refine List.Nodup.map ?_ (List.nodup_range _)
    intro i j hij
    have := suffixPath_inj stem ext hij
    omega
  have hsub : ((List.range (d.length + 1)).map
      (fun k => suffixPath stem ext (k + 1))) ⊆ d.map Prod.fst := by
    intro x hx
    obtain ⟨k, hk, rfl⟩ := List.mem_map.mp hx
    exact hmem k (List.mem_range.mp hk)
  have hlen := (List.subperm_of_subset hnodup hsub).length_le
  simp only [List.length_map, List.length_range] at hlen
  omega

/-- The search loop returns the least free index at or after `start`,
provided some free index lies within the fuel window. -/
theorem findSuffix_spec (d : Disk) (stem ext : ByteStr) :
    ∀ (fuel start : Nat),
      (∃ j, start ≤ j ∧ j < start + fuel ∧
        dGet d (suffixPath stem ext j) = none) →
      dGet d (suffixPath stem ext (findSuffix d stem ext start fuel)) =
        none ∧
      start ≤ findSuffix d stem ext start fuel ∧
      ∀ j, start ≤ j → j < findSuffix d stem ext start fuel →
        dGet d (suffixPath stem ext j) ≠ none := by
  intro fuel
  induction fuel with
  | zero =>
    intro start hex
    obtain ⟨j, h1, h2, -⟩ := hex
    omega
  | succ fuel ih =>
    intro start hex
    unfold findSuffix
    by_cases hfree : dGet d (suffixPath stem ext start) = none
    · rw [if_pos hfree]
      exact ⟨hfree, le_rfl, fun j hj1 hj2 => absurd hj1 (by omega)⟩
    · rw [if_neg hfree]
      obtain ⟨j, hj1, hj2, hj3⟩ := hex
      have hjs : start + 1 ≤ j := by
        by_cases hj : j = start
        · exact absurd (hj ▸ hj3) hfree
        · omega
      obtain ⟨r1, r2, r3⟩ := ih (start + 1) ⟨j, hjs, by omega, hj3⟩
      refine ⟨r1, by omega, fun j2 hj21 hj22 => ?_⟩
      by_cases hj2s : j2 = start
      · exact hj2s ▸ hfree
      · exact r3 j2 (by omega) hj22

/-- The extension is never longer than the path it came from. -/
theorem extBytes_length_le (p : ByteStr) : (extBytes p).length ≤ p.length := by
  have h1 : ∀ f : Nat → Bool, (p.reverse.takeWhile f).length ≤ p.length :=
    fun f => le_of_le_of_eq (List.takeWhile_sublist f).length_le
      (List.length_reverse p)
  unfold extBytes
  dsimp only
  split
  · simp
  · simp only [List.length_reverse, List.length_take]
    exact le_trans (Nat.min_le_right _ _) (h1 _)

/-- C8: backing up two different files sharing one base name, into a
backup directory where that name is initially unused, yields distinct
backup paths: the first call lands at backupDir/base and the second gets
`_k` inserted before the extension, where `k` is the first unused numeric
suffix at the time of the second call (backup.go lines 24-47, 74-84). -/
theorem C8_backup_collision (ren : ByteStr → ByteStr → Bool) (bd : ByteStr)
    (d : Disk) (src1 src2 b1 b2 : ByteStr)
    (hren : ∀ s t, ren s t = true)
    (h1 : dGet d src1 = some b1)
    (h2 : dGet d src2 = some b2)
    (hbase : baseNameBytes src2 = baseNameBytes src1)
    (hne : src1 ≠ src2)
    (hfree : dGet d (joinPath bd (baseNameBytes src1)) = none)
    (hsrc2 : src2 ≠ joinPath bd (baseNameBytes src1)) :
    ∃ d1 d2 k,
      MoveToBackup ren bd d src1 =
        some (d1, joinPath bd (baseNameBytes src1)) ∧
      MoveToBackup ren bd d1 src2 =
        some (d2, suffixPath (stemOf (joinPath bd (baseNameBytes src1)))
          (extBytes (joinPath bd (baseNameBytes src1))) k) ∧
      1 ≤ k ∧
      dGet d1 (suffixPath (stemOf (joinPath bd (baseNameBytes src1)))
        (extBytes (joinPath bd (baseNameBytes src1))) k) = none ∧
      (∀ j, 1 ≤ j → j < k →
        dGet d1 (suffixPath (stemOf (joinPath bd (baseNameBytes src1)))
          (extBytes (joinPath bd (baseNameBytes src1))) j) ≠ none) ∧
      suffixPath (stemOf (joinPath bd (baseNameBytes src1)))
        (extBytes (joinPath bd (baseNameBytes src1))) k ≠
        joinPath bd (baseNameBytes src1) := by
  have e1 : MoveToBackup ren bd d src1 =
      some (dWrite (dRemove d src1) (joinPath bd (baseNameBytes src1)) b1,
            joinPath bd (baseNameBytes src1)) := by
    simp only [MoveToBackup, osRename]
    rw [hfree, h1, hren]
    simp
  have hd1src2 : dGet (dWrite (dRemove d src1)
      (joinPath bd (baseNameBytes src1)) b1) src2 = some b2 := by
    rw [dGet_dWrite, if_neg hsrc2, dGet_dRemove,
        if_neg (fun h => hne h.symm)]
    exact h2
  have hd1bp0 : dGet (dWrite (dRemove d src1)
      (joinPath bd (baseNameBytes src1)) b1)
      (joinPath bd (baseNameBytes src1)) = some b1 := by
    rw [dGet_dWrite, if_pos rfl]
  obtain ⟨j, hj1, hj2, hj3⟩ := exists_free_suffix
    (dWrite (dRemove d src1) (joinPath bd (baseNameBytes src1)) b1)
    (stemOf (joinPath bd (baseNameBytes src1)))
    (extBytes (joinPath bd (baseNameBytes src1)))
  obtain ⟨k1, k2, k3⟩ := findSuffix_spec
    (dWrite (dRemove d src1) (joinPath bd (baseNameBytes src1)) b1)
    (stemOf (joinPath bd (baseNameBytes src1)))
    (extBytes (joinPath bd (baseNameBytes src1)))
    ((dWrite (dRemove d src1) (joinPath bd (baseNameBytes src1)) b1).length + 1)
    1 ⟨j, hj1, by omega, hj3⟩
  have e2 : MoveToBackup ren bd
      (dWrite (dRemove d src1) (joinPath bd (baseNameBytes src1)) b1) src2 =
      some (dWrite (dRemove (dWrite (dRemove d src1)
              (joinPath bd (baseNameBytes src1)) b1) src2)
              (suffixPath (stemOf (joinPath bd (baseNameBytes src1)))
                (extBytes (joinPath bd (baseNameBytes src1)))
                (findSuffix (dWrite (dRemove d src1)
                    (joinPath bd (baseNameBytes src1)) b1)
                  (stemOf (joinPath bd (baseNameBytes src1)))
                  (extBytes (joinPath bd (baseNameBytes src1))) 1
                  ((dWrite (dRemove d src1)
                    (joinPath bd (baseNameBytes src1)) b1).length + 1))) b2,
            suffixPath (stemOf (joinPath bd (baseNameBytes src1)))
              (extBytes (joinPath bd (baseNameBytes src1)))
              (findSuffix (dWrite (dRemove d src1)
                  (joinPath bd (baseNameBytes src1)) b1)
                (stemOf (joinPath bd (baseNameBytes src1)))
                (extBytes (joinPath bd (baseNameBytes src1))) 1
                ((dWrite (dRemove d src1)
                  (joinPath bd (baseNameBytes src1)) b1).length + 1))) := by
    simp only [MoveToBackup, osRename]
    rw [hbase, hd1bp0, hd1src2, hren]
    simp [uniquePathLocked]
  have hne2 : suffixPath (stemOf (joinPath bd (baseNameBytes src1)))
      (extBytes (joinPath bd (baseNameBytes src1)))
      (findSuffix (dWrite (dRemove d src1)
          (joinPath bd (baseNameBytes src1)) b1)
        (stemOf (joinPath bd (baseNameBytes src1)))
        (extBytes (joinPath bd (baseNameBytes src1))) 1
        ((dWrite (dRemove d src1)
          (joinPath bd (baseNameBytes src1)) b1).length + 1)) ≠
      joinPath bd (baseNameBytes src1) := by
    intro hcontra
    have hlen := congrArg List.length hcontra
    have hext := extBytes_length_le (joinPath bd (baseNameBytes src1))
    have hnr : 1 ≤ (natRepr (findSuffix (dWrite (dRemove d src1)
        (joinPath bd (baseNameBytes src1)) b1)
        (stemOf (joinPath bd (baseNameBytes src1)))
        (extBytes (joinPath bd (baseNameBytes src1))) 1
        ((dWrite (dRemove d src1)
          (joinPath bd (baseNameBytes src1)) b1).length + 1))).length :=
      List.length_pos.mpr (natRepr_ne_nil _)
    simp only [suffixPath, stemOf, List.length_append, List.length_take,
      List.length_cons, List.length_nil] at hlen
    omega
  exact ⟨_, _, _, e1, e2, k2, k1, k3, hne2⟩

/-- Witness for `C8_backup_collision`: `a/x.cbz` and `c/x.cbz` both
back up into `bk`; the second lands at `bk/x_1.cbz`. -/
theorem C8_witness :
    MoveToBackup renAll (asciiBytes "bk") d8 (asciiBytes "a/x.cbz") =
      some ([(asciiBytes "bk/x.cbz", [1]), (asciiBytes "c/x.cbz", [2])],
            asciiBytes "bk/x.cbz") ∧
    MoveToBackup renAll (asciiBytes "bk")
      [(asciiBytes "bk/x.cbz", [1]), (asciiBytes "c/x.cbz", [2])]
      (asciiBytes "c/x.cbz") =
      some ([(asciiBytes "bk/x_1.cbz", [2]), (asciiBytes "bk/x.cbz", [1])],
            asciiBytes "bk/x_1.cbz") ∧
    asciiBytes "bk/x.cbz" ≠ asciiBytes "bk/x_1.cbz" := by
  obtain ⟨d1, d2, k, e1, e2, hk1, hk2, hk3, hk4⟩ :=
    C8_backup_collision renAll (asciiBytes "bk") d8 (asciiBytes "a/x.cbz")
      (asciiBytes "c/x.cbz") [1] [2] (fun s t => rfl) (by decide) (by decide)
      (by decide) (by decide) (by decide) (by decide)
  exact ⟨by decide, by decide, by decide⟩

/-- C1 (code bug): in dry-run mode with force also set, `ProcessFile`
does not return after analysis — the dry-run early return sits inside the
`if !force` block, so force skips it along with the analysis.  The trace
shows no dry-run report and the full write path: extraction, temp
creation, backup move and commit rename, contradicting main.go's banner
"DRY RUN MODE - No files will be modified" (main.go lines 127-130).
With force unset, dry-run behaves exactly as the claim states: one
dry-run sink report and no filesystem effects at all. -/
theorem C1_dry_run_force_writes :
    processFileTrace { force := true, dryRun := true, verbose := false }
      envAll =
      ([FsEffect.extract, FsEffect.writeTemp, FsEffect.extract,
        FsEffect.backupMove, FsEffect.renameCommit], [], PFOutcome.done) ∧
    FsEffect.writeTemp ∈
      (processFileTrace { force := true, dryRun := true, verbose := false }
        envAll).1 ∧
    FsEffect.backupMove ∈
      (processFileTrace { force := true, dryRun := true, verbose := false }
        envAll).1 ∧
    FsEffect.renameCommit ∈
      (processFileTrace { force := true, dryRun := true, verbose := false }
        envAll).1 ∧
    SinkEvent.dryRunFile ∉
      (processFileTrace { force := true, dryRun := true, verbose := false }
        envAll).2.1 ∧
    processFileTrace { force := false, dryRun := true, verbose := false }
      envAll =
      ([], [SinkEvent.dryRunFile], PFOutcome.dryRunReturn) := by decide

/-- Joining a name onto a directory never gives back the directory. -/
theorem joinPath_ne (dir n : ByteStr) : joinPath dir n ≠ dir := by
  intro h
  have h2 := congrArg List.length h
  simp only [joinPath, List.length_append, List.length_cons,
    List.length_nil] at h2
  omega

mutual
/-- With recursion enabled, the walk over a node collects exactly the
`.cbz`, non-skip-pattern files among all files outside the backup
directory's subtree. -/
theorem walkNode_rec_eq (bdAbs : ByteStr) (pats : List ByteStr)
    (root : ByteStr) :
    ∀ (path : ByteStr) (t : FSNode),
      walkNode true bdAbs pats root path t =
        (filesNode bdAbs path t).filter (cbzKeep pats)
  | path, FSNode.file n => by
    by_cases h : cbzKeep pats path = true
    all_goals simp [walkNode, filesNode, List.filter_cons, h]
  | path, FSNode.dir n cs => by
    by_cases hbd : path = bdAbs
    · simp [walkNode, filesNode, hbd]
    · simp only [walkNode, filesNode, if_neg hbd, Bool.true_eq_false,
        false_and, if_false]
      exact walkList_rec_eq bdAbs pats root path cs

/-- With recursion enabled, the walk over a child list collects exactly
the kept files below it. -/
theorem walkList_rec_eq (bdAbs : ByteStr) (pats : List ByteStr)
    (root : ByteStr) :
    ∀ (path : ByteStr) (l : FSList),
      walkList true bdAbs pats root path l =
        (filesList bdAbs path l).filter (cbzKeep pats)
  | path, FSList.nil => by simp [walkList, filesList]
  | path, FSList.cons c rest => by
    simp only [walkList, filesList, List.filter_append]
    rw [walkNode_rec_eq bdAbs pats root (joinPath path (nodeName c)) c,
        walkList_rec_eq bdAbs pats root path rest]
end

/-- With recursion disabled, the walk over the root's children collects
exactly the kept files sitting directly in the root: every subdirectory
is pruned. -/
theorem walkList_nonrec (bdAbs : ByteStr) (pats : List ByteStr)
    (root : ByteStr) :
    ∀ l : FSList, walkList false bdAbs pats root root l =
      (directFiles root l).filter (cbzKeep pats)
  | FSList.nil => by simp [walkList, directFiles]
  | FSList.cons (FSNode.file n) rest => by
    simp only [walkList, directFiles, nodeName, List.filter_cons]
    rw [walkList_nonrec bdAbs pats root rest]
    by_cases h : cbzKeep pats (joinPath root n) = true
    all_goals simp [walkNode, h]
  | FSList.cons (FSNode.dir n2 cs2) rest => by
    simp only [walkList, directFiles, nodeName]
    rw [walkList_nonrec bdAbs pats root rest]
    have h1 : walkNode false bdAbs pats root (joinPath root n2)
        (FSNode.dir n2 cs2) = [] := by
      by_cases hbd : joinPath root n2 = bdAbs
      · simp [walkNode, hbd]
      · simp [walkNode, hbd, joinPath_ne root n2]
    rw [h1]
    simp

/-- C6: the directory walk collects exactly the files whose extension is
`.cbz` case-insensitively and whose base name matches no configured skip
pattern; the resolved backup directory's subtree is excluded from
traversal; and with recursion disabled every subdirectory other than the
root is pruned, leaving only the root's direct files (pipeline.go lines
250-281; the skip-pattern exclusion is modelled from the spec). -/
theorem C6_directory_walk (bdAbs : ByteStr) (pats : List ByteStr)
    (root name : ByteStr) (cs : FSList) :
    walkNode true bdAbs pats root root (FSNode.dir name cs) =
      (filesNode bdAbs root (FSNode.dir name cs)).filter (cbzKeep pats) ∧
    walkNode false bdAbs pats root root (FSNode.dir name cs) =
      (if root = bdAbs then []
       else (directFiles root cs).filter (cbzKeep pats)) := by
  refine ⟨walkNode_rec_eq bdAbs pats root root _, ?_⟩
  by_cases hbd : root = bdAbs
  · simp [walkNode, hbd]
  · simp only [walkNode, if_neg hbd]
    rw [if_neg (by simp : ¬ (True ∧ root ≠ root))]
    exact walkList_nonrec bdAbs pats root cs

/-- The scan loop ignores its fuel as long as the fuel exceeds the total
remaining length. -/
theorem natLoopF_congr : ∀ (n : Nat) (a b : ByteStr),
    a.length + b.length ≤ n →
    ∀ f1 f2, a.length + b.length < f1 → a.length + b.length < f2 →
      natLoopF f1 a b = natLoopF f2 a b := by
  intro n
  induction n using Nat.strong_induction_on with
  | _ n ih =>
    intro a b hn f1 f2 h1 h2
    obtain ⟨g1, rfl⟩ : ∃ g, f1 = g + 1 := ⟨f1 - 1, by omega⟩
    obtain ⟨g2, rfl⟩ : ∃ g, f2 = g + 1 := ⟨f2 - 1, by omega⟩
    cases a with
    | nil => rfl
    | cons x s =>
      cases b with
      | nil => rfl
      | cons y t =>
        simp only [natLoopF]
        simp only [List.length_cons] at hn h1 h2
        by_cases hd : isDigitB x = true ∧ isDigitB y = true
        · rw [if_pos hd, if_pos hd]
          by_cases hv : digitsVal ((x :: s).takeWhile isDigitB) ≠
              digitsVal ((y :: t).takeWhile isDigitB)
          · rw [if_pos hv, if_pos hv]
          · rw [if_neg hv, if_neg hv]
            have hda : ((x :: s).dropWhile isDigitB).length ≤ s.length := by
              rw [List.dropWhile_cons, if_pos hd.1]
              exact (List.dropWhile_sublist _).length_le
            have hdb : ((y :: t).dropWhile isDigitB).length ≤ t.length := by
              rw [List.dropWhile_cons, if_pos hd.2]
              exact (List.dropWhile_sublist _).length_le
            exact ih (((x :: s).dropWhile isDigitB).length +
                ((y :: t).dropWhile isDigitB).length) (by omega)
              ((x :: s).dropWhile isDigitB) ((y :: t).dropWhile isDigitB)
              le_rfl g1 g2 (by omega) (by omega)
        · rw [if_neg hd, if_neg hd]
          by_cases hxy : x ≠ y
          · rw [if_pos hxy, if_pos hxy]
          · rw [if_neg hxy, if_neg hxy]
            exact ih (s.length + t.length) (by omega) s t le_rfl g1 g2
              (by omega) (by omega)

/-- Swapping the arguments of the scan loop negates any decision and
preserves indecision. -/
theorem natLoopF_swap : ∀ (fuel : Nat) (a b : ByteStr),
    natLoopF fuel b a = (natLoopF fuel a b).map (fun r => !r) := by
  intro fuel
  induction fuel with
  | zero => intro a b; rfl
  | succ f ih =>
    intro a b
    cases a with
    | nil =>
      cases b with
      | nil => rfl
      | cons y t => rfl
    | cons x s =>
      cases b with
      | nil => rfl
      | cons y t =>
        simp only [natLoopF]
        by_cases hd : isDigitB x = true ∧ isDigitB y = true
        · have hd2 : isDigitB y = true ∧ isDigitB x = true := ⟨hd.2, hd.1⟩
          rw [if_pos hd2, if_pos hd]
          by_cases hv : digitsVal ((x :: s).takeWhile isDigitB) =
              digitsVal ((y :: t).takeWhile isDigitB)
          · rw [if_neg (fun h => h hv.symm), if_neg (fun h => h hv)]
            exact ih _ _
          · rw [if_pos (fun h => hv h.symm), if_pos hv]
            simp only [Option.map_some']
            congr 1
            rcases Nat.lt_or_gt_of_ne hv with h | h
            all_goals simp [h, Nat.lt_asymm h]
        · have hd2 : ¬ (isDigitB y = true ∧ isDigitB x = true) :=
            fun h => hd ⟨h.2, h.1⟩
          rw [if_neg hd2, if_neg hd]
          by_cases hxy : x = y
          · rw [if_neg (fun h => h hxy.symm), if_neg (fun h => h hxy)]
            exact ih s t
          · rw [if_pos (fun h => hxy h.symm), if_pos hxy]
            simp only [Option.map_some']
            congr 1
            rcases Nat.lt_or_gt_of_ne hxy with h | h
            all_goals simp [h, Nat.lt_asymm h]

/-- Two strings are never each naturally less than the other. -/
theorem naturalLess_asymm (a b : ByteStr) :
    ¬ (naturalLess a b = true ∧ naturalLess b a = true) := by
  intro hc
  obtain ⟨h1, h2⟩ := hc
  unfold naturalLess natLoop at h1 h2
  rw [Nat.add_comm b.length a.length] at h2
  rw [natLoopF_swap (a.length + b.length + 1) a b] at h2
  cases hres : natLoopF (a.length + b.length + 1) a b with
  | none =>
    rw [hres] at h1 h2
    simp only [Option.map_none'] at h2
    simp only [decide_eq_true_eq] at h1 h2
    omega
  | some r =>
    rw [hres] at h1 h2
    simp only [Option.map_some'] at h2
    cases r
    · exact absurd h1 (by simp)
    · exact absurd h2 (by simp)

/-- The sorting relation is total: of any two entries, one may precede
the other. -/
theorem imgLe_total : ∀ i j : ImageEntry, imgLe i j ∨ imgLe j i := by
  intro i j
  unfold imgLe
  cases hb : naturalLess j.path i.path with
  | false => exact Or.inl rfl
  | true =>
    cases hb2 : naturalLess i.path j.path with
    | false => exact Or.inr rfl
    | true => exact absurd ⟨hb2, hb⟩ (naturalLess_asymm _ _)

/-- Inserting into a locally sorted list keeps it locally sorted, using
only totality of the relation (the natural order is total but its ties
are not transitive, so this is the sortedness insertion sort actually
guarantees). -/
theorem chain_orderedInsert {α : Type} (r : α → α → Prop)
    [DecidableRel r] (tot : ∀ a b, r a b ∨ r b a) (a : α) :
    ∀ l : List α, l.Chain' r → (List.orderedInsert r a l).Chain' r := by
  intro l
  induction l with
  | nil => intro _; simp [List.orderedInsert]
  | cons b l ih =>
    intro h
    simp only [List.orderedInsert]
    by_cases hab : r a b
    · rw [if_pos hab]
      exact List.chain'_cons.mpr ⟨hab, h⟩
    · rw [if_neg hab]
      have hba : r b a := (tot a b).resolve_left hab
      cases l with
      | nil =>
        simp only [List.orderedInsert]
        exact List.chain'_cons.mpr ⟨hba, List.chain'_singleton a⟩
      | cons c l' =>
        have hbc : r b c := (List.chain'_cons.mp h).1
        have htail : (c :: l').Chain' r := (List.chain'_cons.mp h).2
        have hrec := ih htail
        simp only [List.orderedInsert] at hrec ⊢
        by_cases hac : r a c
        · rw [if_pos hac] at hrec ⊢
          exact List.chain'_cons.mpr ⟨hba, hrec⟩
        · rw [if_neg hac] at hrec ⊢
          exact List.chain'_cons.mpr ⟨hbc, hrec⟩

/-- Insertion sort over a total relation produces a locally sorted list:
every element is related to its successor. -/
theorem chain_insertionSort {α : Type} (r : α → α → Prop)
    [DecidableRel r] (tot : ∀ a b, r a b ∨ r b a) :
    ∀ l : List α, (List.insertionSort r l).Chain' r := by
  intro l
  induction l with
  | nil => simp [List.insertionSort]
  | cons a l ih =>
    simp only [List.insertionSort]
    exact chain_orderedInsert r tot a _ ih

/-- Folding the digit-accumulation step from an arbitrary accumulator. -/
theorem digitsVal_foldl (ys : ByteStr) : ∀ a : Nat,
    ys.foldl (fun a c => a * 10 + (c - 48)) a =
      a * 10 ^ ys.length + ys.foldl (fun a c => a * 10 + (c - 48)) 0 := by
  induction ys with
  | nil => intro a; simp
  | cons c ys ih =>
    intro a
    simp only [List.foldl_cons, List.length_cons]
    rw [ih (a * 10 + (c - 48)), ih (0 * 10 + (c - 48))]
    ring

/-- Appending digits multiplies the accumulated value by the matching
power of ten. -/
theorem digitsVal_append (xs ys : ByteStr) :
    digitsVal (xs ++ ys) = digitsVal xs * 10 ^ ys.length + digitsVal ys := by
  unfold digitsVal
  rw [List.foldl_append]
  exact digitsVal_foldl ys _

/-- When the scan reaches two digit heads whose digit runs differ in
value, the comparison is decided by the run values as integers. -/
theorem naturalLess_digit_decided (x y : Nat) (s t : ByteStr)
    (hx : isDigitB x = true) (hy : isDigitB y = true)
    (hv : digitsVal ((x :: s).takeWhile isDigitB) ≠
          digitsVal ((y :: t).takeWhile isDigitB)) :
    naturalLess (x :: s) (y :: t) =
      decide (digitsVal ((x :: s).takeWhile isDigitB) <
              digitsVal ((y :: t).takeWhile isDigitB)) := by
  unfold naturalLess natLoop
  simp only [natLoopF]
  rw [if_pos ⟨hx, hy⟩, if_pos hv]

/-- When the heads differ and are not both digits, the comparison is
decided by the bytes. -/
theorem naturalLess_byte (x y : Nat) (s t : ByteStr)
    (hnd : ¬ (isDigitB x = true ∧ isDigitB y = true)) (hxy : x ≠ y) :
    naturalLess (x :: s) (y :: t) = decide (x < y) := by
  unfold naturalLess natLoop
  simp only [natLoopF]
  rw [if_neg hnd, if_pos hxy]

/-- Scanning a string against itself extended never decides in favour of
the shorter string: the loop either exhausts the prefix undecided or
decides for the extension. -/
theorem natLoopF_self_append : ∀ (n : Nat) (a e : ByteStr), a.length ≤ n →
    ∀ f, a.length + (a ++ e).length < f →
      natLoopF f a (a ++ e) = none ∨ natLoopF f a (a ++ e) = some true := by
  intro n
  induction n using Nat.strong_induction_on with
  | _ n ih =>
    intro a e hn f hf
    obtain ⟨g, rfl⟩ : ∃ g, f = g + 1 := ⟨f - 1, by omega⟩
    cases a with
    | nil => left; rfl
    | cons x s =>
      have hcons : (x :: s) ++ e = x :: (s ++ e) := rfl
      rw [hcons]
      simp only [List.length_cons, List.length_append] at hn hf
      simp only [natLoopF]
      by_cases hx : isDigitB x = true
      · rw [if_pos ⟨hx, hx⟩]
        by_cases hE : s.dropWhile isDigitB = []
        · have hall : ∀ c ∈ s, isDigitB c = true :=
            List.dropWhile_eq_nil_iff.mp hE
          have htws : s.takeWhile isDigitB = s := by
            have h0 := List.takeWhile_append_dropWhile isDigitB s
            rw [hE, List.append_nil] at h0
            exact h0
          have hta : (x :: s).takeWhile isDigitB = x :: s := by
            rw [List.takeWhile_cons, if_pos hx, htws]
          have htb : (x :: (s ++ e)).takeWhile isDigitB =
              (x :: s) ++ e.takeWhile isDigitB := by
            rw [List.takeWhile_cons, if_pos hx,
              List.takeWhile_append_of_pos hall]
            rfl
          have hge : digitsVal ((x :: s).takeWhile isDigitB) ≤
              digitsVal ((x :: (s ++ e)).takeWhile isDigitB) := by
            rw [hta, htb, digitsVal_append]
            have h10 : 1 ≤ 10 ^ (e.takeWhile isDigitB).length :=
              Nat.one_le_pow _ _ (by norm_num)
            have h2 := Nat.mul_le_mul_left (digitsVal (x :: s)) h10
            omega
          by_cases hv : digitsVal ((x :: s).takeWhile isDigitB) ≠
              digitsVal ((x :: (s ++ e)).takeWhile isDigitB)
          · rw [if_pos hv]
            right
            have hlt : digitsVal ((x :: s).takeWhile isDigitB) <
                digitsVal ((x :: (s ++ e)).takeWhile isDigitB) :=
              lt_of_le_of_ne hge hv
            simp only [Option.some.injEq, decide_eq_true_eq]
            exact hlt
          · rw [if_neg hv]
            have hda : (x :: s).dropWhile isDigitB = [] := by
              rw [List.dropWhile_cons, if_pos hx, hE]
            rw [hda]
            left
            cases g with
            | zero => rfl
            | succ g2 => rfl
        · have hlen : (s.takeWhile isDigitB).length +
              (s.dropWhile isDigitB).length = s.length := by
            conv_rhs => rw [← List.takeWhile_append_dropWhile isDigitB s]
            rw [List.length_append]
          have hne : (s.takeWhile isDigitB).length ≠ s.length := by
            have hp : 0 < (s.dropWhile isDigitB).length :=
              List.length_pos.mpr hE
            omega
          have htw : (s ++ e).takeWhile isDigitB = s.takeWhile isDigitB := by
            rw [List.takeWhile_append, if_neg hne]
          have hdw : (s ++ e).dropWhile isDigitB =
              s.dropWhile isDigitB ++ e := by
            rw [List.dropWhile_append,
              if_neg (fun h => hE (List.isEmpty_iff.mp h))]
          have hveq : digitsVal ((x :: s).takeWhile isDigitB) =
              digitsVal ((x :: (s ++ e)).takeWhile isDigitB) := by
            rw [List.takeWhile_cons, List.takeWhile_cons, if_pos hx,
              if_pos hx, htw]
          rw [if_neg (fun h => h hveq)]
          have hda : (x :: s).dropWhile isDigitB = s.dropWhile isDigitB := by
            rw [List.dropWhile_cons, if_pos hx]
          have hdb : (x :: (s ++ e)).dropWhile isDigitB =
              s.dropWhile isDigitB ++ e := by
            rw [List.dropWhile_cons, if_pos hx, hdw]
          rw [hda, hdb]
          have hlea : (s.dropWhile isDigitB).length ≤ s.length :=
            (List.dropWhile_sublist _).length_le
          exact ih (s.dropWhile isDigitB).length (by omega)
            (s.dropWhile isDigitB) e le_rfl g
            (by simp only [List.length_append]; omega)
      · rw [if_neg (fun h => hx h.1), if_neg (fun h => h rfl)]
        exact ih s.length (by omega) s e le_rfl g
          (by simp only [List.length_append]; omega)

/-- On a clean prefix match the shorter string is naturally less, and
the longer one is not naturally less than its prefix. -/
theorem naturalLess_prefix (a e : ByteStr) (he : e ≠ []) :
    naturalLess a (a ++ e) = true ∧ naturalLess (a ++ e) a = false := by
  have hcore := natLoopF_self_append a.length a e le_rfl
    (a.length + (a ++ e).length + 1) (by omega)
  constructor
  · unfold naturalLess natLoop
    rcases hcore with h | h
    · rw [h]
      have hlt : a.length < (a ++ e).length := by
        rw [List.length_append]
        have := List.length_pos.mpr he
        omega
      simp [hlt]
      exact List.length_pos.mpr he
    · rw [h]
  · unfold naturalLess natLoop
    rw [natLoopF_swap ((a ++ e).length + a.length + 1) a (a ++ e),
      natLoopF_congr (a.length + (a ++ e).length) a (a ++ e) le_rfl
        ((a ++ e).length + a.length + 1) (a.length + (a ++ e).length + 1)
        (by omega) (by omega)]
    rcases hcore with h | h
    · rw [h]
      simp only [Option.map_none']
      have hge : ¬ ((a ++ e).length < a.length) := by
        rw [List.length_append]
        omega
      simp [hge]
    · rw [h]
      rfl

/-- C4: `Extract` returns the collected image entries as a permutation
sorted by natural path order (adjacent-sorted under the comparator the
code hands `sort.Slice`); the comparator orders `page2.jpg` before
`page10.jpg`; at two digit heads whose runs differ in value the runs
compare as integers; at differing heads that are not both digits the
bytes compare; and on a clean prefix match the shorter string is less. -/
theorem C4_natural_sort :
    (∀ es : List ZEntry,
        ((ExtractM es).images).Perm
          ((es.foldl classifyEntry { images := [], others := [] }).images) ∧
        ((ExtractM es).images).Chain' imgLe) ∧
    (naturalLess (asciiBytes "page2.jpg") (asciiBytes "page10.jpg") = true ∧
     naturalLess (asciiBytes "page10.jpg") (asciiBytes "page2.jpg") = false) ∧
    (∀ (x y : Nat) (s t : ByteStr), isDigitB x = true → isDigitB y = true →
        digitsVal ((x :: s).takeWhile isDigitB) ≠
          digitsVal ((y :: t).takeWhile isDigitB) →
        naturalLess (x :: s) (y :: t) =
          decide (digitsVal ((x :: s).takeWhile isDigitB) <
                  digitsVal ((y :: t).takeWhile isDigitB))) ∧
    (∀ (x y : Nat) (s t : ByteStr),
        ¬ (isDigitB x = true ∧ isDigitB y = true) → x ≠ y →
        naturalLess (x :: s) (y :: t) = decide (x < y)) ∧
    (∀ a e : ByteStr, e ≠ [] →
        naturalLess a (a ++ e) = true ∧ naturalLess (a ++ e) a = false) := by
  refine ⟨fun es => ⟨?_, ?_⟩, ⟨by decide, by decide⟩, ?_, ?_, ?_⟩
  · exact List.perm_insertionSort imgLe _
  · exact chain_insertionSort imgLe imgLe_total _
  · exact fun x y s t hx hy hv => naturalLess_digit_decided x y s t hx hy hv
  · exact fun x y s t hnd hxy => naturalLess_byte x y s t hnd hxy
  · exact fun a e he => naturalLess_prefix a e he

/-- Witness for C4 at concrete inputs: the three-entry archive sorts its
two images as `page2.jpg, page10.jpg`, and the prefix rule fires on
`"1" ++ "a"`. -/
theorem C4_witness :
    ((ExtractM zEntriesW).images).Chain' imgLe ∧
    naturalLess (asciiBytes "page2.jpg") (asciiBytes "page10.jpg") = true ∧
    naturalLess (asciiBytes "1") (asciiBytes "1" ++ [97]) = true :=
  ⟨(C4_natural_sort.1 zEntriesW).2, C4_natural_sort.2.1.1,
   (C4_natural_sort.2.2.2.2 (asciiBytes "1") [97] (by decide)).1⟩

end Comics
